import Mathlib

/-
  Verification of the mini_db embedded relational store.

  Shallow embedding of the core components, translated from the C++
  sources: Schema codec (src/src/Schema.cpp), TableStorage record heap
  (src/src/TableStorage.cpp), redo replay (TableStorage::apply_redo and
  Database::recover), PageCache LRU (src/src/Cache.cpp), Pager
  (src/src/Pager.cpp) and the NUMA worker executor
  (src/src/NumaExecutor.cpp).  Bytes are modelled as Nat, byte buffers
  as List Nat, and C++ functions returning bool-plus-error as Option.
-/

namespace MiniDb

/-! Data model, from src/include/db/Types.h.  Column names are modelled
    as abstract identifiers (Nat); the C++ code lowercases names before
    comparing, which the abstract identifiers absorb. -/

inductive ColumnType where
  | int
  | text
deriving DecidableEq

/-- A Value is an INT (the mathematical value of an int32_t) or a TEXT
    (its byte contents; std::string may hold any bytes including NUL). -/
inductive Value where
  | int (v : Int)
  | text (bytes : List Nat)
deriving DecidableEq

structure Column where
  name : Nat
  type : ColumnType
  length : Nat
deriving DecidableEq

/-- The int_value field of a C++ Value; 0 for values built by Value::Text. -/
def intField : Value → Int
  | .int n => n
  | .text _ => 0

/-- The text_value field of a C++ Value; empty for values built by Value::Int. -/
def textField : Value → List Nat
  | .int _ => []
  | .text s => s

/-! Schema layout, from src/src/Schema.cpp. -/

/-- Bytes one column occupies: INT is 4 bytes, TEXT is the declared length. -/
def colSize (c : Column) : Nat :=
  match c.type with
  | .int => 4
  | .text => c.length

/-- Schema::data_size, the sum of the column sizes. -/
def dataSize (cols : List Column) : Nat := (cols.map colSize).sum

/-- Schema::record_size: one validity byte plus the data bytes. -/
def recordSize (cols : List Column) : Nat := 1 + dataSize cols

/-- Schema::column_index via the name map built in the constructor; the
    map is filled in column order so a duplicated name keeps the last index. -/
def columnIndex (cols : List Column) (name : Nat) : Option Nat :=
  ((cols.enum.filter (fun p => p.2.name = name)).getLast?).map (fun p => p.1)

/-! Integer parsing and formatting helpers, from src/src/Utils.cpp
    (is_number) and std::stoll / std::to_string as used by
    Schema::normalize_value. -/

/-- is_number from Utils.cpp: optional sign then one or more ASCII digits. -/
def isNumber (s : List Nat) : Bool :=
  match s with
  | [] => false
  | c :: rest =>
    let digits := if c = 45 ∨ c = 43 then rest else c :: rest
    (!digits.isEmpty) && digits.all (fun d => 48 ≤ d && d ≤ 57)

/-- Numeric value of a list of ASCII digits, most significant first. -/
def digitsVal (ds : List Nat) : Nat := ds.foldl (fun acc d => acc * 10 + (d - 48)) 0

/-- std::stoll on a string accepted by is_number. -/
def parseIntBytes (s : List Nat) : Int :=
  match s with
  | 45 :: rest => - (digitsVal rest : Int)
  | 43 :: rest => (digitsVal rest : Int)
  | _ => (digitsVal s : Int)

/-- Decimal digits of a natural number, as ASCII bytes. -/
def natDecimal (n : Nat) : List Nat :=
  if h : n < 10 then [48 + n]
  else natDecimal (n / 10) ++ [48 + n % 10]
termination_by n
decreasing_by exact Nat.div_lt_self (by omega) (by omega)

/-- std::to_string on an integer: minus sign for negatives, then digits. -/
def intToBytes (v : Int) : List Nat :=
  if v < 0 then 45 :: natDecimal v.natAbs else natDecimal v.natAbs

def int32Min : Int := -2147483648
def int32Max : Int := 2147483647

/-! Value normalization and record codec, from src/src/Schema.cpp. -/

/-- Schema::normalize_value: coerce a value to the column type.
    INT accepts INT unchanged, or numeric TEXT parsed and range checked.
    TEXT accepts TEXT (length checked when the column length is positive)
    or INT formatted as decimal (same length check). -/
def normalizeValue (col : Column) (v : Value) : Option Value :=
  match col.type, v with
  | .int, .int n => some (.int n)
  | .int, .text s =>
    if isNumber s then
      let parsed := parseIntBytes s
      if parsed < int32Min ∨ parsed > int32Max then none
      else some (.int parsed)
    else none
  | .text, .text s =>
    if 0 < col.length ∧ col.length < s.length then none else some (.text s)
  | .text, .int n =>
    let s := intToBytes n
    if 0 < col.length ∧ col.length < s.length then none else some (.text s)

/-- Normalize each value against its column, in order, failing fast. -/
def normalizeAll : List Column → List Value → Option (List Value)
  | [], [] => some []
  | c :: cs, v :: vs =>
    match normalizeValue c v, normalizeAll cs vs with
    | some v2, some vs2 => some (v2 :: vs2)
    | _, _ => none
  | _, _ => none

/-- Schema::validate_values: the value count must match the column count
    and every value must normalize. -/
def validateValues (cols : List Column) (vals : List Value) : Option (List Value) :=
  if vals.length = cols.length then normalizeAll cols vals else none

/-- Byte-by-byte store into a buffer starting at an offset, mirroring
    memcpy into a fixed vector; stores past the end are dropped the way
    List.set drops them. -/
def writeBytesAt : List Nat → Nat → List Nat → List Nat
  | out, _, [] => out
  | out, off, b :: bs => writeBytesAt (out.set off b) (off + 1) bs

/-- write_int32 from Schema.cpp: little endian bytes of the int32 bit
    pattern. -/
def int32ToBytes (v : Int) : List Nat :=
  let u := (v % 4294967296).toNat
  [u % 256, u / 256 % 256, u / 65536 % 256, u / 16777216 % 256]

/-- read_int32 from Schema.cpp: recompose the unsigned value and
    reinterpret as a two complement int32. -/
def bytesToInt32 (b0 b1 b2 b3 : Nat) : Int :=
  let u := b0 + b1 * 256 + b2 * 65536 + b3 * 16777216
  if u < 2147483648 then (u : Int) else (u : Int) - 4294967296

/-- Encoding loop of Schema::encode_record: for each column write the
    INT little endian bytes, or zero the TEXT region and copy the text. -/
def encodeCols : List Column → List Value → Nat → List Nat → Option (List Nat)
  | [], [], _, out => some out
  | c :: cs, v :: vs, off, out =>
    match c.type with
    | .int => encodeCols cs vs (off + 4) (writeBytesAt out off (int32ToBytes (intField v)))
    | .text =>
      let s := textField v
      if 0 < c.length ∧ c.length < s.length then none
      else
        encodeCols cs vs (off + c.length)
          (writeBytesAt (writeBytesAt out off (List.replicate c.length 0)) off s)
  | _, _, _, _ => none

/-- Schema::encode_record: validate, then write the validity byte and
    each column into a zero filled record of record_size bytes. -/
def encodeRecord (cols : List Column) (vals : List Value) (valid : Bool) : Option (List Nat) :=
  match validateValues cols vals with
  | none => none
  | some nvals =>
    encodeCols cols nvals 1
      ((List.replicate (recordSize cols) 0).set 0 (if valid then 1 else 0))

/-- TEXT decoding stops at the first NUL byte. -/
def takeUntilNul : List Nat → List Nat
  | [] => []
  | b :: bs => if b = 0 then [] else b :: takeUntilNul bs

/-- Bytes of a record region, as read by the decode loop. -/
def readBytes (rec : List Nat) (off n : Nat) : List Nat := (rec.drop off).take n

/-- Decoding loop of Schema::decode_record. -/
def decodeCols (rec : List Nat) : List Column → Nat → List Value
  | [], _ => []
  | c :: cs, off =>
    match c.type with
    | .int =>
      .int (bytesToInt32 (rec.getD off 0) (rec.getD (off + 1) 0)
            (rec.getD (off + 2) 0) (rec.getD (off + 3) 0)) :: decodeCols rec cs (off + 4)
    | .text => .text (takeUntilNul (readBytes rec off c.length)) :: decodeCols rec cs (off + c.length)

/-- Schema::decode_record: reject records shorter than record_size, read
    the validity byte, then decode each column. -/
def decodeRecord (cols : List Column) (rec : List Nat) : Option (List Value × Bool) :=
  if rec.length < recordSize cols then none
  else some (decodeCols rec cols 1, rec.getD 0 0 ≠ 0)

/-- Side conditions under which the codec round trips: TEXT values carry
    no NUL byte and fit their column, INT values are in int32 range.
    The int32 range condition restates the C++ int32_t field type. -/
def roundTripSafe (cols : List Column) (nvals : List Value) : Bool :=
  (cols.zip nvals).all fun p =>
    (match p.1.type, p.2 with
     | .text, .text s => (s.all (fun b => b ≠ 0)) && s.length ≤ p.1.length
     | _, _ => true)
    &&
    (match p.2 with
     | .int n => int32Min ≤ n && n ≤ int32Max
     | _ => true)

/-- Well-shaped normalized rows: one value per column of the matching
    constructor, TEXT values NUL free and fitting, INT values in range. -/
def codecAligned : List Column → List Value → Prop
  | [], [] => True
  | c :: cs, v :: vs =>
    (match c.type, v with
     | .int, .int n => int32Min ≤ n ∧ n ≤ int32Max
     | .text, .text s => (∀ b ∈ s, b ≠ 0) ∧ s.length ≤ c.length
     | _, _ => False) ∧ codecAligned cs vs
  | _, _ => False

/-- The contiguous data bytes an aligned row encodes to, column by column. -/
def encodedBody : List Column → List Value → List Nat
  | c :: cs, v :: vs =>
    (match c.type with
     | .int => int32ToBytes (intField v)
     | .text => textField v ++ List.replicate (c.length - (textField v).length) 0)
    ++ encodedBody cs vs
  | _, _ => []

/-! TableStorage mutating operations, from src/src/TableStorage.cpp.
    The table is modelled at record granularity: recs maps a row id to
    the bytes stored in its slot.  Each operation returns its result,
    the post state, and the ordered trace of durable effects it
    performed (successful log appends, record writes, header writes).
    Fallible collaborators (LogManager::append, PagedFile writes) fail
    according to an environment of oracles. -/

inductive LogOp where
  | ins
  | upd
  | del
deriving DecidableEq

inductive Event where
  | append (op : LogOp) (row : Nat) (rec : List Nat)
  | writeRec (row : Nat) (rec : List Nat)
  | writeHeader (rowCount : Nat)
deriving DecidableEq

structure TSState where
  rowCount : Nat
  freeList : List Nat
  recs : Nat → List Nat

structure TSEnv where
  appendOk : Nat → Bool
  writeOk : Nat → Bool
  headerOk : Bool

/-- TableStorage::read_record via PagedFile::read_item, which always
    returns exactly record_size bytes for the slot (missing bytes read
    as zero). -/
def ts_read_record (cols : List Column) (st : TSState) (row : Nat) : List Nat :=
  (st.recs row).take (recordSize cols)
    ++ List.replicate (recordSize cols - (st.recs row).length) 0

/-- values_equal from TableStorage.cpp: compare by the column type,
    int_value for INT and text_value for TEXT. -/
def values_equal (a b : Value) (t : ColumnType) : Bool :=
  match t with
  | .int => decide (intField a = intField b)
  | .text => decide (textField a = textField b)

/-- Evaluate the optional resolved WHERE clause on a decoded row. -/
def whereMatch (cols : List Column) (wh : Option (Nat × Value)) (values : List Value) : Bool :=
  match wh with
  | none => true
  | some (idx, wv) =>
    values_equal (values.getD idx (.int 0)) wv ((cols.getD idx ⟨0, .int, 0⟩).type)

/-- Apply the resolved SET pairs in order, overwriting each column. -/
def applySets (setvs : List (Nat × Value)) (values : List Value) : List Value :=
  setvs.foldl (fun vs p => vs.set p.1 p.2) values

/-- Resolve SET clauses: look up each column by name and normalize the
    value, failing on an unknown column or a bad coercion. -/
def resolveSets (cols : List Column) : List (Nat × Value) → Option (List (Nat × Value))
  | [] => some []
  | (name, v) :: rest =>
    match columnIndex cols name with
    | none => none
    | some idx =>
      match normalizeValue (cols.getD idx ⟨0, .int, 0⟩) v with
      | none => none
      | some v2 =>
        match resolveSets cols rest with
        | none => none
        | some r => some ((idx, v2) :: r)

/-- Resolve the optional WHERE clause the same way. -/
def resolveWhere (cols : List Column) : Option (Nat × Value) → Option (Option (Nat × Value))
  | none => some none
  | some (name, v) =>
    match columnIndex cols name with
    | none => none
    | some idx =>
      match normalizeValue (cols.getD idx ⟨0, .int, 0⟩) v with
      | none => none
      | some v2 => some (some (idx, v2))

/-- TableStorage::insert: validate, pick the row id from the back of the
    free list or extend row_count, encode with valid=1, append the redo
    record before writing, write the record, and rewrite the header only
    when a fresh row id was taken. -/
def ts_insert (cols : List Column) (hasLog : Bool) (env : TSEnv) (vals : List Value)
    (st : TSState) : Option Nat × TSState × List Event :=
  match validateValues cols vals with
  | none => (none, st, [])
  | some normalized =>
    let pick : Nat × Bool × TSState :=
      match st.freeList.getLast? with
      | some r => (r, true, { st with freeList := st.freeList.dropLast })
      | none => (st.rowCount, false, { st with rowCount := st.rowCount + 1 })
    let newRowId := pick.1
    let reused := pick.2.1
    let st1 := pick.2.2
    match encodeRecord cols normalized true with
    | none => (none, st1, [])
    | some rec =>
      if hasLog ∧ ¬ env.appendOk newRowId then (none, st1, [])
      else
        let tr1 := if hasLog then [Event.append .ins newRowId rec] else []
        if rec.length ≠ recordSize cols ∨ ¬ env.writeOk newRowId then (none, st1, tr1)
        else
          let st2 := { st1 with recs := fun r => if r = newRowId then rec else st1.recs r }
          let tr2 := tr1 ++ [Event.writeRec newRowId rec]
          if reused then (some newRowId, st2, tr2)
          else if ¬ env.headerOk then (none, st2, tr2)
          else (some newRowId, st2, tr2 ++ [Event.writeHeader st2.rowCount])

/-- The scan loop of TableStorage::update: read and decode each row,
    skip deleted rows and WHERE misses, build the new values, encode,
    append the redo record, then write. -/
def ts_update_rows (cols : List Column) (hasLog : Bool) (env : TSEnv)
    (setvs : List (Nat × Value)) (wh : Option (Nat × Value)) :
    List Nat → TSState → List Event → Nat → Option Nat × TSState × List Event
  | [], st, tr, count => (some count, st, tr)
  | row :: rest, st, tr, count =>
    match decodeRecord cols (ts_read_record cols st row) with
    | none => (none, st, tr)
    | some (values, valid) =>
      if !valid then ts_update_rows cols hasLog env setvs wh rest st tr count
      else if !whereMatch cols wh values then
        ts_update_rows cols hasLog env setvs wh rest st tr count
      else
        match encodeRecord cols (applySets setvs values) true with
        | none => (none, st, tr)
        | some rec =>
          if hasLog ∧ ¬ env.appendOk row then (none, st, tr)
          else
            let tr1 := tr ++ (if hasLog then [Event.append .upd row rec] else [])
            if rec.length ≠ recordSize cols ∨ ¬ env.writeOk row then (none, st, tr1)
            else
              ts_update_rows cols hasLog env setvs wh rest
                { st with recs := fun r => if r = row then rec else st.recs r }
                (tr1 ++ [Event.writeRec row rec]) (count + 1)

/-- TableStorage::update: resolve SET and WHERE up front, then scan all
    rows from 0 to row_count. -/
def ts_update (cols : List Column) (hasLog : Bool) (env : TSEnv)
    (sets : List (Nat × Value)) (wh : Option (Nat × Value)) (st : TSState) :
    Option Nat × TSState × List Event :=
  if sets.isEmpty then (none, st, [])
  else
    match resolveSets cols sets with
    | none => (none, st, [])
    | some setvs =>
      match resolveWhere cols wh with
      | none => (none, st, [])
      | some rwh => ts_update_rows cols hasLog env setvs rwh (List.range st.rowCount) st [] 0

/-- The scan loop of TableStorage::remove: clear the validity byte of
    each matching live row, append the redo record, write the record,
    then push the row id on the free list. -/
def ts_remove_rows (cols : List Column) (hasLog : Bool) (env : TSEnv)
    (wh : Option (Nat × Value)) :
    List Nat → TSState → List Event → Nat → Option Nat × TSState × List Event
  | [], st, tr, count => (some count, st, tr)
  | row :: rest, st, tr, count =>
    match decodeRecord cols (ts_read_record cols st row) with
    | none => (none, st, tr)
    | some (values, valid) =>
      if !valid then ts_remove_rows cols hasLog env wh rest st tr count
      else if !whereMatch cols wh values then ts_remove_rows cols hasLog env wh rest st tr count
      else
        let rec2 := (ts_read_record cols st row).set 0 0
        if hasLog ∧ ¬ env.appendOk row then (none, st, tr)
        else
          let tr1 := tr ++ (if hasLog then [Event.append .del row rec2] else [])
          if rec2.length ≠ recordSize cols ∨ ¬ env.writeOk row then (none, st, tr1)
          else
            ts_remove_rows cols hasLog env wh rest
              { st with recs := fun r => if r = row then rec2 else st.recs r,
                        freeList := st.freeList ++ [row] }
              (tr1 ++ [Event.writeRec row rec2]) (count + 1)

/-- TableStorage::remove: resolve WHERE, then scan all rows. -/
def ts_remove (cols : List Column) (hasLog : Bool) (env : TSEnv)
    (wh : Option (Nat × Value)) (st : TSState) : Option Nat × TSState × List Event :=
  match resolveWhere cols wh with
  | none => (none, st, [])
  | some rwh => ts_remove_rows cols hasLog env rwh (List.range st.rowCount) st [] 0

/-- Checker for the write-ahead ordering: scanning the trace left to
    right while collecting successful appends, every record write must
    be covered by an earlier append with the same row and bytes. -/
def redoOrderedAux : List (Nat × List Nat) → List Event → Bool
  | _, [] => true
  | seen, .append _ r rec :: rest => redoOrderedAux ((r, rec) :: seen) rest
  | seen, .writeRec r rec :: rest => decide ((r, rec) ∈ seen) && redoOrderedAux seen rest
  | seen, .writeHeader _ :: rest => redoOrderedAux seen rest

def redoOrdered (tr : List Event) : Bool := redoOrderedAux [] tr

/-- The appends a trace contributes to the seen set. -/
def seenAfter (seen : List (Nat × List Nat)) : List Event → List (Nat × List Nat)
  | [] => seen
  | .append _ r rec :: rest => seenAfter ((r, rec) :: seen) rest
  | .writeRec _ _ :: rest => seenAfter seen rest
  | .writeHeader _ :: rest => seenAfter seen rest

/-! Striped page locking for single-record access.
    TableStorage.h declares the point operations read_row, update_row,
    delete_row, write_row and the stripe selector page_lock, but their
    definitions are not part of src/ (only the header and the bench
    callers are present), so the lock discipline is modelled from the
    spec.  record_offset comes from the source; the spec fixes
    page id = record offset / page_size and stripe = page id mod 64. -/

def kPageLockStripes : Nat := 64

/-- TableStorage::record_offset: the header page is skipped, records are
    laid out contiguously after it. -/
def record_offset (page_size rs row : Nat) : Nat := page_size + row * rs

/-- Modelled from the spec: TableStorage::page_id_for_row, declared in
    TableStorage.h and specified as record offset divided by page size. -/
def page_id_for_row (ps rs row : Nat) : Nat := record_offset ps rs row / ps

/-- Modelled from the spec: TableStorage::page_lock picks the stripe
    page_id mod 64. -/
def page_lock_index (pid : Nat) : Nat := pid % kPageLockStripes

inductive LockEvent where
  | acquire (stripe : Nat)
  | release (stripe : Nat)
  | access (row : Nat)
deriving DecidableEq

/-- Modelled from the spec: read_row takes the page lock of the page of the row, reads the
    record, releases. -/
def read_row_trace (ps rs row : Nat) : List LockEvent :=
  [.acquire (page_lock_index (page_id_for_row ps rs row)), .access row,
   .release (page_lock_index (page_id_for_row ps rs row))]

/-- Modelled from the spec: update_row reads the record and writes the
    updated record under the same page lock. -/
def update_row_trace (ps rs row : Nat) : List LockEvent :=
  [.acquire (page_lock_index (page_id_for_row ps rs row)), .access row, .access row,
   .release (page_lock_index (page_id_for_row ps rs row))]

/-- Modelled from the spec: delete_row reads the record, clears the
    validity byte and writes it back under the same page lock. -/
def delete_row_trace (ps rs row : Nat) : List LockEvent :=
  [.acquire (page_lock_index (page_id_for_row ps rs row)), .access row, .access row,
   .release (page_lock_index (page_id_for_row ps rs row))]

/-- Modelled from the spec: write_row writes the encoded record under
    the page lock. -/
def write_row_trace (ps rs row : Nat) : List LockEvent :=
  [.acquire (page_lock_index (page_id_for_row ps rs row)), .access row,
   .release (page_lock_index (page_id_for_row ps rs row))]

/-- Walk a lock trace maintaining the set of held stripes; every record
    access must happen while the stripe of its row is held. -/
def locksHeld (ps rs : Nat) : List LockEvent → List Nat → Bool
  | [], _ => true
  | .acquire s :: rest, held => locksHeld ps rs rest (s :: held)
  | .release s :: rest, held => locksHeld ps rs rest (held.erase s)
  | .access row :: rest, held =>
    decide (page_lock_index (page_id_for_row ps rs row) ∈ held) && locksHeld ps rs rest held

/-! PageCache, from src/src/Cache.cpp: a bounded LRU keyed by page id.
    The unordered_map is modelled as an association list of entries, the
    LRU std::list as a list of ids with the most recent at the front.
    Pager reads and writes and buffer allocation succeed or fail
    according to an environment of oracles. -/

structure CacheEntry where
  id : Nat
  dirty : Bool
deriving DecidableEq

structure CacheState where
  entries : List CacheEntry
  lru : List Nat
  capacity : Nat
deriving DecidableEq

structure CacheEnv where
  readOk : Nat → Bool
  writeOk : Nat → Bool
  allocOk : Bool

/-- pages_.find. -/
def findEntry (entries : List CacheEntry) (pid : Nat) : Option CacheEntry :=
  entries.find? (fun e => e.id == pid)

/-- pages_.erase of the found iterator: remove the first entry with the
    key. -/
def eraseKey : List CacheEntry → Nat → List CacheEntry
  | [], _ => []
  | e :: rest, pid => if e.id = pid then rest else e :: eraseKey rest pid

/-- Set the dirty flag on the resident entry, if present. -/
def setDirty : List CacheEntry → Nat → List CacheEntry
  | [], _ => []
  | e :: rest, pid =>
    if e.id = pid then { e with dirty := true } :: rest else e :: setDirty rest pid

/-- PageCache::evict_if_needed: nothing to do below capacity (or when
    capacity is 0, meaning unbounded); otherwise take the LRU tail as
    victim, write it back first when dirty (failure aborts leaving the
    state untouched), then drop it from the list and the map. -/
def evict_if_needed (env : CacheEnv) (st : CacheState) : Option CacheState :=
  if st.capacity = 0 ∨ st.entries.length < st.capacity then some st
  else
    let victim := (st.lru.getLast?).getD 0
    match findEntry st.entries victim with
    | none => some st
    | some e =>
      if e.dirty ∧ ¬ env.writeOk victim then none
      else some { st with lru := st.lru.dropLast, entries := eraseKey st.entries victim }

/-- PageCache::get_page: on a hit move the id to the LRU front; on a
    miss evict if needed, allocate the buffer, read the page from the
    Pager, and insert at the LRU front.  Failures return false without
    inserting. -/
def get_page (env : CacheEnv) (pid : Nat) (st : CacheState) : Bool × CacheState :=
  match findEntry st.entries pid with
  | some _ => (true, { st with lru := pid :: st.lru.erase pid })
  | none =>
    match evict_if_needed env st with
    | none => (false, st)
    | some st1 =>
      if ¬ env.allocOk then (false, st1)
      else if ¬ env.readOk pid then (false, st1)
      else (true, { st1 with lru := pid :: st1.lru, entries := ⟨pid, false⟩ :: st1.entries })

/-- PageCache::mark_dirty: flag the resident entry, no-op when absent. -/
def mark_dirty (pid : Nat) (st : CacheState) : CacheState :=
  { st with entries := setDirty st.entries pid }

/-- The write-back loop of PageCache::flush: write each dirty entry back
    clearing its flag, stopping at the first Pager failure. -/
def flushEntries (env : CacheEnv) : List CacheEntry → Bool × List CacheEntry
  | [] => (true, [])
  | e :: rest =>
    if e.dirty then
      if env.writeOk e.id then
        let r := flushEntries env rest
        (r.1, { e with dirty := false } :: r.2)
      else (false, e :: rest)
    else
      let r := flushEntries env rest
      (r.1, e :: r.2)

/-- PageCache::flush. -/
def cache_flush (env : CacheEnv) (st : CacheState) : Bool × CacheState :=
  ((flushEntries env st.entries).1, { st with entries := (flushEntries env st.entries).2 })

/-- Invariant of the claim: the map keys and the LRU list hold the same
    ids (each exactly once) and the map never exceeds a nonzero
    capacity. -/
def cacheKeys (st : CacheState) : List Nat := st.entries.map (fun e => e.id)

def CacheInv (st : CacheState) : Prop :=
  (cacheKeys st).Perm st.lru ∧ st.lru.Nodup ∧
    (st.capacity = 0 ∨ st.entries.length ≤ st.capacity)

/-! Pager, from src/src/Pager.cpp: page-granular file access with
    zero fill past end of file.  The file is a byte list; the fstream
    error state is a flag that both read_page and write_page clear
    before and after use. -/

structure PagerState where
  file : List Nat
  isOpen : Bool
  streamFail : Bool
deriving DecidableEq

/-- Pager::read_page: reject a closed pager or a wrong buffer size.
    Reading at or past end of file returns an all-zero page without
    touching the stream; otherwise read what the file holds, zero fill
    the tail, and clear the stream flags that a short read set. -/
def read_page (ps : Nat) (st : PagerState) (pid size : Nat) :
    Option (List Nat) × PagerState :=
  if ¬ st.isOpen then (none, st)
  else if size ≠ ps then (none, st)
  else
    let offset := pid * ps
    if offset ≥ st.file.length then (some (List.replicate ps 0), st)
    else
      let got := st.file.length - offset
      ((some ((st.file.drop offset).take ps ++ List.replicate (ps - got) 0)),
       { st with streamFail := false })

/-- Pager::write_page: reject a closed pager or a wrong size; clear the
    stream state, then write the page at its offset, extending the file
    with a zero gap when the offset is past the end. -/
def write_page (ps : Nat) (st : PagerState) (pid : Nat) (data : List Nat) :
    Bool × PagerState :=
  if ¬ st.isOpen then (false, st)
  else if data.length ≠ ps then (false, st)
  else
    let offset := pid * ps
    let padded := if offset ≥ st.file.length
      then st.file ++ List.replicate (offset - st.file.length) 0 else st.file
    (true, { st with file := padded.take offset ++ data ++ padded.drop (offset + ps),
                     streamFail := false })

/-! NumaExecutor, from src/src/NumaExecutor.cpp and
    src/include/db/NumaExecutor.h.  Queues are per node FIFO lists;
    tasks are abstract values executed through a run function. -/

structure Executor (α : Type) where
  nodes : Nat
  running : Bool
  queues : List (List α)

inductive Future (β : Type) where
  | ready (value : β)
  | pending
deriving DecidableEq

/-- The constructor clamp: nodes defaults to 1 when not positive. -/
def node_count_init (nodes : Int) : Nat := if nodes > 0 then nodes.toNat else 1

/-- NumaExecutor::start: create one empty queue per node. -/
def exec_start {α : Type} (ex : Executor α) : Executor α :=
  if ex.running then ex
  else { ex with running := true, queues := List.replicate ex.nodes [] }

/-- NumaExecutor::enqueue: drop the task when not running (submit never
    reaches that case); clamp a negative node to 0 and wrap an out of
    range node with mod; push at the back of that queue. -/
def enqueue {α : Type} (ex : Executor α) (node : Int) (task : α) : Executor α :=
  if ¬ ex.running then ex
  else
    let t0 : Int := if node < 0 then 0 else node
    let t1 : Int := if t0 ≥ (ex.nodes : Int) then t0 % (ex.nodes : Int) else t0
    let target := t1.toNat
    { ex with queues := ex.queues.set target ((ex.queues.getD target []) ++ [task]) }

/-- NumaExecutor::submit: before start, run the task synchronously and
    hand back a ready future; after start, enqueue and hand back the
    pending future the worker will fulfill. -/
def submit {α β : Type} (ex : Executor α) (run : α → β) (node : Int) (task : α) :
    Future β × Executor α :=
  if ¬ ex.running then (.ready (run task), ex)
  else (.pending, enqueue ex node task)

/-! Redo replay, from TableStorage::apply_redo (src/src/TableStorage.cpp)
    and Database::recover (src/src/Database.cpp).  The table file is
    modelled byte by byte as a function from offset to byte value; the
    in-memory row count accompanies it. -/

structure HeapState where
  bytes : Nat → Nat
  rowCount : Nat

/-- Overwrite len bytes at an offset of a byte function, mirroring
    PagedFile::write_item on the cached pages. -/
def write_bytes (f : Nat → Nat) (off : Nat) (data : List Nat) : Nat → Nat :=
  fun o => if off ≤ o ∧ o < off + data.length then data.getD (o - off) 0 else f o

/-- Little endian bytes of a 32 bit value, as write_uint32 produces. -/
def le32 (v : Nat) : List Nat := [v % 256, v / 256 % 256, v / 65536 % 256, v / 16777216 % 256]

/-- Little endian bytes of a 64 bit value, as write_uint64 produces. -/
def le64 (v : Nat) : List Nat :=
  [v % 256, v / 256 % 256, v / 65536 % 256, v / 16777216 % 256,
   v / 4294967296 % 256, v / 1099511627776 % 256,
   v / 281474976710656 % 256, v / 72057594037927936 % 256]

/-- The 32 header bytes TableStorage::write_header produces: TBL1 magic,
    record_size as u32, row_count as u64, reserved u64, zero padding. -/
def header_bytes (record_size rowCount : Nat) : List Nat :=
  [84, 66, 76, 49] ++ le32 record_size ++ le64 rowCount ++ le64 0 ++ List.replicate 8 0

/-- One replayed log record: target row and full post-image bytes. -/
structure RedoEntry where
  row : Nat
  data : List Nat

/-- TableStorage::apply_redo: reject a record whose size differs from
    the schema record size; grow row_count to row+1 (rewriting the
    header) when the row is beyond it; then write the record verbatim. -/
def apply_redo (ps rs : Nat) (e : RedoEntry) (st : HeapState) : Option HeapState :=
  if e.data.length ≠ rs then none
  else
    let st1 := if e.row ≥ st.rowCount then
        { bytes := write_bytes st.bytes 0 (header_bytes rs (e.row + 1)),
          rowCount := e.row + 1 }
      else st
    some { st1 with bytes := write_bytes st1.bytes (record_offset ps rs e.row) e.data }

/-- Replay a log in file order, stopping at the first failure, the way
    Database::recover applies entries. -/
def replay (ps rs : Nat) : List RedoEntry → HeapState → Option HeapState
  | [], st => some st
  | e :: rest, st =>
    match apply_redo ps rs e st with
    | none => none
    | some st1 => replay ps rs rest st1

/-- The record writes of a replay pass, ignoring header maintenance. -/
def applyWrites (ps rs : Nat) (entries : List RedoEntry) (f : Nat → Nat) : Nat → Nat :=
  entries.foldl (fun g e => write_bytes g (record_offset ps rs e.row) e.data) f

/-- The byte the last entry covering an offset writes there, if any. -/
def lastWriteFrom (ps rs : Nat) (acc : Option Nat) (entries : List RedoEntry) (o : Nat) :
    Option Nat :=
  entries.foldl
    (fun a e =>
      if record_offset ps rs e.row ≤ o ∧ o < record_offset ps rs e.row + e.data.length
      then some (e.data.getD (o - record_offset ps rs e.row) 0) else a)
    acc

/-! Supporting lemmas for the codec. -/

theorem writeBytesAt_eq (data : List Nat) : ∀ (out : List Nat) (off : Nat),
    off + data.length ≤ out.length →
    writeBytesAt out off data = out.take off ++ data ++ out.drop (off + data.length) := by
  induction data with
  | nil => intro out off _; simp [writeBytesAt]
  | cons b bs ih =>
    intro out off h
    have hoff : off < out.length := by simp at h; omega
    have hset : out.set off b = out.take off ++ b :: out.drop (off + 1) :=
      List.set_eq_take_cons_drop b hoff
    show writeBytesAt (out.set off b) (off + 1) bs = _
    rw [ih (out.set off b) (off + 1) (by simp at h ⊢; omega), hset]
    have h1 : (out.take off ++ b :: out.drop (off + 1)).take (off + 1)
        = out.take off ++ [b] := by
      rw [List.take_append_eq_append_take]
      have : (out.take off).length = off := by
        rw [List.length_take]; omega
      rw [this]
      simp
    have h2 : (out.take off ++ b :: out.drop (off + 1)).drop (off + 1 + bs.length)
        = out.drop (off + (b :: bs).length) := by
      rw [List.drop_append_eq_append_drop]
      have hlen : (out.take off).length = off := by
        rw [List.length_take]; omega
      rw [List.drop_eq_nil_of_le (by omega), hlen]
      have : off + 1 + bs.length - off = bs.length + 1 := by omega
      rw [this]
      simp [List.drop_drop]
      congr 1
      omega
    rw [h1, h2]
    simp

theorem writeBytesAt_length (data : List Nat) : ∀ (out : List Nat) (off : Nat),
    (writeBytesAt out off data).length = out.length := by
  induction data with
  | nil => intro out off; rfl
  | cons b bs ih => intro out off; show (writeBytesAt (out.set off b) (off + 1) bs).length = _
                    rw [ih]; simp

theorem bytesToInt32_int32ToBytes (n : Int) (h1 : int32Min ≤ n) (h2 : n ≤ int32Max) :
    bytesToInt32 ((int32ToBytes n).getD 0 0) ((int32ToBytes n).getD 1 0)
      ((int32ToBytes n).getD 2 0) ((int32ToBytes n).getD 3 0) = n := by
  simp only [int32Min] at h1
  simp only [int32Max] at h2
  simp only [int32ToBytes, bytesToInt32, List.getD, List.getElem?_cons_zero,
    List.getElem?_cons_succ, List.get?_cons_zero, List.get?_cons_succ, Option.getD_some]
  have hu : ((n % 4294967296).toNat : Int) = n % 4294967296 := by
    have : (0 : Int) ≤ n % 4294967296 := Int.emod_nonneg n (by norm_num)
    omega
  set u := (n % 4294967296).toNat with hudef
  have hulit : (u : Int) = n ∨ (u : Int) = n + 4294967296 := by
    rcases le_or_lt 0 n with hn | hn
    · left; rw [hu]; omega
    · right; rw [hu]; omega
  have hub : u < 4294967296 := by
    have : n % 4294967296 < 4294967296 := Int.emod_lt_of_pos n (by norm_num)
    omega
  have hdecomp : u % 256 + u / 256 % 256 * 256 + u / 65536 % 256 * 65536
      + u / 16777216 % 256 * 16777216 = u := by omega
  rw [hdecomp]
  rcases hulit with h | h
  · rw [if_pos (by omega), h]
  · rw [if_neg (by omega), h]; ring

theorem takeUntilNul_append_replicate (s : List Nat) (k : Nat) (h : ∀ b ∈ s, b ≠ 0) :
    takeUntilNul (s ++ List.replicate k 0) = s := by
  induction s with
  | nil =>
    cases k with
    | zero => rfl
    | succ m => simp [takeUntilNul, List.replicate_succ]
  | cons b bs ih =>
    have hb : b ≠ 0 := h b (by simp)
    simp only [List.cons_append, takeUntilNul, if_neg hb, List.append_eq]
    rw [ih (fun x hx => h x (by simp [hx]))]

theorem drop_append_add (l₁ l₂ : List Nat) (i : Nat) :
    (l₁ ++ l₂).drop (l₁.length + i) = l₂.drop i := by
  rw [List.drop_append_eq_append_drop, List.drop_eq_nil_of_le (by omega)]
  simp

theorem normalizeValue_shape (c : Column) (v v2 : Value)
    (h : normalizeValue c v = some v2) :
    (c.type = .int → ∃ n, v2 = .int n) ∧ (c.type = .text → ∃ s, v2 = .text s) := by
  cases hc : c.type with
  | int =>
    refine ⟨fun _ => ?_, fun ht => absurd ht (by simp)⟩
    cases v with
    | int n => simp [normalizeValue, hc] at h; exact ⟨n, h.symm⟩
    | text s =>
      simp [normalizeValue, hc] at h
      exact ⟨_, h.2.2.symm⟩
  | text =>
    refine ⟨fun ht => absurd ht (by simp), fun _ => ?_⟩
    cases v with
    | int n =>
      simp [normalizeValue, hc] at h
      exact ⟨_, h.2.symm⟩
    | text s =>
      simp [normalizeValue, hc] at h
      exact ⟨_, h.2.symm⟩

theorem normalizeAll_shapes : ∀ (cols : List Column) (vals nvals : List Value),
    normalizeAll cols vals = some nvals →
    nvals.length = cols.length ∧
    (∀ i, (h : i < cols.length) → (h2 : i < nvals.length) →
      ((cols.get ⟨i, h⟩).type = .int → ∃ n, nvals.get ⟨i, h2⟩ = .int n) ∧
      ((cols.get ⟨i, h⟩).type = .text → ∃ s, nvals.get ⟨i, h2⟩ = .text s)) := by
  intro cols
  induction cols with
  | nil =>
    intro vals nvals h
    cases vals <;> simp [normalizeAll] at h
    subst h
    exact ⟨rfl, fun i h _ => absurd h (by simp)⟩
  | cons c cs ih =>
    intro vals nvals h
    cases vals with
    | nil => simp [normalizeAll] at h
    | cons v vs =>
      simp only [normalizeAll] at h
      cases hnv : normalizeValue c v with
      | none => rw [hnv] at h; simp at h
      | some v2 =>
        rw [hnv] at h
        cases hna : normalizeAll cs vs with
        | none => rw [hna] at h; simp at h
        | some vs2 =>
          rw [hna] at h
          simp at h
          subst h
          obtain ⟨hlen, hrest⟩ := ih vs vs2 hna
          refine ⟨by simp [hlen], ?_⟩
          intro i h1 h2
          cases i with
          | zero => simpa using normalizeValue_shape c v v2 hnv
          | succ j => simpa using hrest j (by simpa using h1) (by simpa using h2)

theorem codecAligned_of : ∀ (cols : List Column) (vals nvals : List Value),
    normalizeAll cols vals = some nvals → roundTripSafe cols nvals = true →
    codecAligned cols nvals := by
  intro cols
  induction cols with
  | nil =>
    intro vals nvals h _
    cases vals <;> simp [normalizeAll] at h
    subst h
    trivial
  | cons c cs ih =>
    intro vals nvals h hs
    cases vals with
    | nil => simp [normalizeAll] at h
    | cons v vs =>
      simp only [normalizeAll] at h
      cases hnv : normalizeValue c v with
      | none => rw [hnv] at h; simp at h
      | some v2 =>
        rw [hnv] at h
        cases hna : normalizeAll cs vs with
        | none => rw [hna] at h; simp at h
        | some vs2 =>
          rw [hna] at h
          simp at h
          subst h
          simp only [roundTripSafe, List.zip_cons_cons, List.all_cons, Bool.and_eq_true] at hs
          obtain ⟨⟨hhead1, hhead2⟩, htail⟩ := hs
          refine ⟨?_, ih vs vs2 hna (by simpa [roundTripSafe] using htail)⟩
          cases hc : c.type with
          | int =>
            obtain ⟨n, rfl⟩ := (normalizeValue_shape c v v2 hnv).1 hc
            simp only [hc] at hhead2 ⊢
            simp at hhead2
            exact hhead2
          | text =>
            obtain ⟨s, rfl⟩ := (normalizeValue_shape c v v2 hnv).2 hc
            simp only [hc] at hhead1 ⊢
            simp at hhead1
            exact ⟨hhead1.1, hhead1.2⟩

theorem encodedBody_length : ∀ (cols : List Column) (nvals : List Value),
    codecAligned cols nvals → (encodedBody cols nvals).length = dataSize cols := by
  intro cols
  induction cols with
  | nil =>
    intro nvals h
    cases nvals with
    | nil => simp [encodedBody, dataSize]
    | cons v vs => exact absurd h (by simp [codecAligned])
  | cons c cs ih =>
    intro nvals h
    cases nvals with
    | nil => exact absurd h (by simp [codecAligned])
    | cons v vs =>
      obtain ⟨hhead, htail⟩ := h
      simp only [encodedBody, List.length_append, dataSize, List.map_cons, List.sum_cons]
      have htl : (encodedBody cs vs).length = dataSize cs := ih vs htail
      rw [htl]
      congr 1
      cases hc : c.type with
      | int =>
        rw [hc] at hhead
        cases v with
        | int n => simp [int32ToBytes, colSize, hc]
        | text s => exact absurd hhead (by simp)
      | text =>
        rw [hc] at hhead
        cases v with
        | int n => exact absurd hhead (by simp)
        | text s =>
          simp only [colSize, hc, textField, List.length_append, List.length_replicate]
          omega

theorem encodeCols_eq : ∀ (cols : List Column) (nvals : List Value) (off : Nat) (out : List Nat),
    codecAligned cols nvals → off + dataSize cols ≤ out.length →
    encodeCols cols nvals off out
      = some (out.take off ++ encodedBody cols nvals ++ out.drop (off + dataSize cols)) := by
  intro cols
  induction cols with
  | nil =>
    intro nvals off out h hlen
    cases nvals with
    | nil =>
      simp only [encodeCols, encodedBody, dataSize, List.map_nil, List.sum_nil, Nat.add_zero,
        List.append_nil, List.take_append_drop]
    | cons v vs => exact absurd h (by simp [codecAligned])
  | cons c cs ih =>
    intro nvals off out h hlen
    cases nvals with
    | nil => exact absurd h (by simp [codecAligned])
    | cons v vs =>
      obtain ⟨hhead, htail⟩ := h
      have hds : dataSize (c :: cs) = colSize c + dataSize cs := by
        simp [dataSize]
      have hA : (out.take off).length = off := by
        rw [List.length_take]; omega
      cases hc : c.type with
      | int =>
        rw [hc] at hhead
        obtain ⟨n, rfl⟩ : ∃ n, v = .int n := by
          cases v with
          | int n => exact ⟨n, rfl⟩
          | text s => exact absurd hhead (by simp)
        have hcz : colSize c = 4 := by simp [colSize, hc]
        have h4 : (int32ToBytes n).length = 4 := by simp [int32ToBytes]
        have hw : writeBytesAt out off (int32ToBytes n)
            = out.take off ++ int32ToBytes n ++ out.drop (off + 4) := by
          rw [writeBytesAt_eq _ _ _ (by rw [h4]; rw [hds, hcz] at hlen; omega), h4]
        simp only [encodeCols, hc, intField]
        rw [hw, ih vs (off + 4) _ htail ?hl]
        case hl =>
          simp only [List.length_append, hA, h4, List.length_drop]
          rw [hds, hcz] at hlen
          omega
        have htake : (out.take off ++ int32ToBytes n ++ out.drop (off + 4)).take (off + 4)
            = out.take off ++ int32ToBytes n := by
          rw [List.append_assoc]
          rw [List.take_append_eq_append_take, hA]
          have : off + 4 - off = 4 := by omega
          rw [this]
          rw [List.take_append_eq_append_take, h4]
          simp [List.take_of_length_le (by rw [hA]; omega : (out.take off).length ≤ off + 4),
            List.take_of_length_le (le_of_eq h4)]
        have hdrop : (out.take off ++ int32ToBytes n ++ out.drop (off + 4)).drop
            (off + 4 + dataSize cs) = out.drop (off + dataSize (c :: cs)) := by
          rw [List.append_assoc]
          have : off + 4 + dataSize cs = (out.take off).length + (4 + dataSize cs) := by
            rw [hA]; omega
          rw [this, drop_append_add]
          have : 4 + dataSize cs = (int32ToBytes n).length + dataSize cs := by rw [h4]
          rw [this, drop_append_add, List.drop_drop]
          congr 1
          rw [hds, hcz]
          omega
        rw [htake, hdrop]
        simp only [encodedBody, hc, intField]
        simp [List.append_assoc]
      | text =>
        rw [hc] at hhead
        obtain ⟨s, rfl⟩ : ∃ s, v = .text s := by
          cases v with
          | int n => exact absurd hhead (by simp)
          | text s => exact ⟨s, rfl⟩
        obtain ⟨hnul, hfit⟩ := hhead
        have hcz : colSize c = c.length := by simp [colSize, hc]
        have hlen2 : off + c.length ≤ out.length := by
          rw [hds, hcz] at hlen; omega
        have hw1 : writeBytesAt out off (List.replicate c.length 0)
            = out.take off ++ List.replicate c.length 0 ++ out.drop (off + c.length) := by
          rw [writeBytesAt_eq _ _ _ (by simp; omega), List.length_replicate]
        have hlen1 : (writeBytesAt out off (List.replicate c.length 0)).length = out.length :=
          writeBytesAt_length _ _ _
        have hw2 : writeBytesAt (writeBytesAt out off (List.replicate c.length 0)) off s
            = out.take off ++ (s ++ List.replicate (c.length - s.length) 0)
              ++ out.drop (off + c.length) := by
          rw [writeBytesAt_eq _ _ _ (by rw [hlen1]; omega), hw1]
          have ht1 : (out.take off ++ List.replicate c.length 0 ++ out.drop (off + c.length)).take
              off = out.take off := by
            rw [List.append_assoc, List.take_append_eq_append_take, hA]
            simp
          have ht2 : (out.take off ++ List.replicate c.length 0
              ++ out.drop (off + c.length)).drop (off + s.length)
              = List.replicate (c.length - s.length) 0 ++ out.drop (off + c.length) := by
            rw [List.append_assoc]
            have h0 : off + s.length = (out.take off).length + s.length := by rw [hA]
            rw [h0, drop_append_add, List.drop_append_eq_append_drop, List.length_replicate,
              List.drop_replicate, Nat.sub_eq_zero_of_le hfit, List.drop_zero]
          rw [ht1, ht2]
          simp [List.append_assoc]
        simp only [encodeCols, hc, textField]
        rw [if_neg (by omega)]
        rw [hw2, ih vs (off + c.length) _ htail ?hl2]
        case hl2 =>
          simp only [List.length_append, hA, List.length_replicate, List.length_drop]
          rw [hds, hcz] at hlen
          omega
        have hseglen : (s ++ List.replicate (c.length - s.length) 0).length = c.length := by
          simp; omega
        have htake : (out.take off ++ (s ++ List.replicate (c.length - s.length) 0)
            ++ out.drop (off + c.length)).take (off + c.length)
            = out.take off ++ (s ++ List.replicate (c.length - s.length) 0) := by
          rw [List.append_assoc, List.take_append_eq_append_take, hA]
          have : off + c.length - off = c.length := by omega
          rw [this]
          rw [List.take_append_eq_append_take, hseglen]
          simp [List.take_of_length_le
              (by rw [hA]; omega : (out.take off).length ≤ off + c.length),
            List.take_of_length_le (le_of_eq hseglen)]
        have hdrop : (out.take off ++ (s ++ List.replicate (c.length - s.length) 0)
            ++ out.drop (off + c.length)).drop (off + c.length + dataSize cs)
            = out.drop (off + dataSize (c :: cs)) := by
          rw [List.append_assoc]
          have : off + c.length + dataSize cs = (out.take off).length
              + (c.length + dataSize cs) := by rw [hA]; omega
          rw [this, drop_append_add]
          have : c.length + dataSize cs = (s ++ List.replicate (c.length - s.length) 0).length
              + dataSize cs := by rw [hseglen]
          rw [this, drop_append_add, List.drop_drop]
          congr 1
          rw [hds, hcz]
          omega
        rw [htake, hdrop]
        simp only [encodedBody, hc, textField]
        simp [List.append_assoc]

theorem decodeCols_append : ∀ (cols : List Column) (nvals : List Value) (P S : List Nat),
    codecAligned cols nvals →
    decodeCols (P ++ (encodedBody cols nvals ++ S)) cols P.length = nvals := by
  intro cols
  induction cols with
  | nil =>
    intro nvals P S h
    cases nvals with
    | nil => simp [decodeCols]
    | cons v vs => exact absurd h (by simp [codecAligned])
  | cons c cs ih =>
    intro nvals P S h
    cases nvals with
    | nil => exact absurd h (by simp [codecAligned])
    | cons v vs =>
      obtain ⟨hhead, htail⟩ := h
      cases hc : c.type with
      | int =>
        rw [hc] at hhead
        obtain ⟨n, rfl⟩ : ∃ n, v = .int n := by
          cases v with
          | int n => exact ⟨n, rfl⟩
          | text s => exact absurd hhead (by simp)
        obtain ⟨hr1, hr2⟩ := hhead
        have h4 : (int32ToBytes n).length = 4 := by simp [int32ToBytes]
        have hbody : encodedBody (c :: cs) (Value.int n :: vs)
            = int32ToBytes n ++ encodedBody cs vs := by
          simp [encodedBody, hc, intField]
        rw [hbody, List.append_assoc]
        simp only [decodeCols, hc]
        have hgd : ∀ i, i < 4 →
            (P ++ (int32ToBytes n ++ (encodedBody cs vs ++ S))).getD (P.length + i) 0
            = (int32ToBytes n).getD i 0 := by
          intro i hi
          rw [List.getD_append_right _ _ _ _ (by omega)]
          have : P.length + i - P.length = i := by omega
          rw [this, List.getD_append _ _ _ _ (by rw [h4]; omega)]
        have hg0 : (P ++ (int32ToBytes n ++ (encodedBody cs vs ++ S))).getD P.length 0
            = (int32ToBytes n).getD 0 0 := by
          have := hgd 0 (by omega)
          simpa using this
        rw [hg0, hgd 1 (by omega), hgd 2 (by omega), hgd 3 (by omega),
          bytesToInt32_int32ToBytes n hr1 hr2]
        have hrest : decodeCols (P ++ (int32ToBytes n ++ (encodedBody cs vs ++ S))) cs
            (P.length + 4) = vs := by
          have hlen : (P ++ int32ToBytes n).length = P.length + 4 := by
            rw [List.length_append, h4]
          have := ih vs (P ++ int32ToBytes n) S htail
          rw [hlen, List.append_assoc] at this
          exact this
        rw [hrest]
      | text =>
        rw [hc] at hhead
        obtain ⟨s, rfl⟩ : ∃ s, v = .text s := by
          cases v with
          | int n => exact absurd hhead (by simp)
          | text s => exact ⟨s, rfl⟩
        obtain ⟨hnul, hfit⟩ := hhead
        have hbody : encodedBody (c :: cs) (Value.text s :: vs)
            = (s ++ List.replicate (c.length - s.length) 0) ++ encodedBody cs vs := by
          simp [encodedBody, hc, textField]
        have hseglen : (s ++ List.replicate (c.length - s.length) 0).length = c.length := by
          simp
          omega
        rw [hbody, List.append_assoc]
        simp only [decodeCols, hc]
        have hread : readBytes (P ++ ((s ++ List.replicate (c.length - s.length) 0)
            ++ (encodedBody cs vs ++ S))) P.length c.length
            = s ++ List.replicate (c.length - s.length) 0 := by
          simp only [readBytes, List.drop_left]
          rw [List.take_append_eq_append_take, List.take_of_length_le (le_of_eq hseglen),
            hseglen, Nat.sub_self, List.take_zero, List.append_nil]
        rw [hread, takeUntilNul_append_replicate s _ hnul]
        have hrest : decodeCols (P ++ ((s ++ List.replicate (c.length - s.length) 0)
            ++ (encodedBody cs vs ++ S))) cs (P.length + c.length) = vs := by
          have hlen : (P ++ (s ++ List.replicate (c.length - s.length) 0)).length
              = P.length + c.length := by
            rw [List.length_append, hseglen]
          have := ih vs (P ++ (s ++ List.replicate (c.length - s.length) 0)) S htail
          rw [hlen, List.append_assoc] at this
          exact this
        rw [hrest]

/-- C3 (amended): for every schema and every values vector that passes
    validate_values, provided each normalized TEXT value contains no NUL
    byte and fits within its column length (and each INT value is in
    int32 range, as the C++ int32_t field type guarantees),
    decode_record of encode_record returns the normalized values and the
    same validity flag.  The unamended claim fails for TEXT values with
    an embedded NUL, see the counterexample. -/
theorem C3_codec_roundtrip (cols : List Column) (vals nvals : List Value) (valid : Bool)
    (hv : validateValues cols vals = some nvals)
    (hs : roundTripSafe cols nvals = true) :
    ∃ rec, encodeRecord cols vals valid = some rec ∧
      decodeRecord cols rec = some (nvals, valid) := by
  have hna : normalizeAll cols vals = some nvals := by
    unfold validateValues at hv
    split at hv
    · exact hv
    · simp at hv
  have hal := codecAligned_of cols vals nvals hna hs
  have hrec0 : (List.replicate (recordSize cols) 0).set 0 (if valid then (1 : Nat) else 0)
      = (if valid then (1 : Nat) else 0) :: List.replicate (dataSize cols) 0 := by
    have : recordSize cols = dataSize cols + 1 := by simp [recordSize]; omega
    rw [this, List.replicate_succ]
    rfl
  have hout : ((if valid then (1 : Nat) else 0) :: List.replicate (dataSize cols) 0).length
      = 1 + dataSize cols := by simp; omega
  have henc : encodeRecord cols vals valid
      = encodeCols cols nvals 1
        ((List.replicate (recordSize cols) 0).set 0 (if valid then (1 : Nat) else 0)) := by
    unfold encodeRecord
    rw [hv]
  rw [henc, hrec0, encodeCols_eq cols nvals 1 _ hal (by rw [hout])]
  have htk : ((if valid then (1 : Nat) else 0) :: List.replicate (dataSize cols) 0).take 1
      = [if valid then (1 : Nat) else 0] := by simp
  have hdp : ((if valid then (1 : Nat) else 0) :: List.replicate (dataSize cols) 0).drop
      (1 + dataSize cols) = [] := by
    rw [Nat.add_comm, List.drop_succ_cons, List.drop_replicate, Nat.sub_self]
    rfl
  rw [htk, hdp, List.append_nil]
  refine ⟨_, rfl, ?_⟩
  have hbl : (encodedBody cols nvals).length = dataSize cols := encodedBody_length cols nvals hal
  have hreclen : ([if valid then (1 : Nat) else 0] ++ encodedBody cols nvals).length
      = recordSize cols := by
    simp only [List.length_append, List.length_cons, List.length_nil, hbl, recordSize]
  unfold decodeRecord
  rw [if_neg (by omega)]
  have hdec : decodeCols ([if valid then (1 : Nat) else 0] ++ (encodedBody cols nvals ++ []))
      cols 1 = nvals := by
    have := decodeCols_append cols nvals [if valid then (1 : Nat) else 0] [] hal
    simpa using this
  rw [List.append_nil] at hdec
  rw [hdec]
  have hvb : ([if valid then (1 : Nat) else 0] ++ encodedBody cols nvals).getD 0 0
      = (if valid then (1 : Nat) else 0) := by
    cases valid <;> rfl
  rw [hvb]
  cases valid <;> simp

/-- C3 counterexample: a TEXT value containing an embedded NUL byte
    passes validate_values unchanged, but decode_record truncates it at
    the NUL, so the round trip of the claim fails as stated. -/
theorem C3_counterexample :
    validateValues [⟨0, .text, 4⟩] [.text [97, 0, 98]] = some [.text [97, 0, 98]] ∧
    (encodeRecord [⟨0, .text, 4⟩] [.text [97, 0, 98]] true).isSome = true ∧
    decodeRecord [⟨0, .text, 4⟩]
        ((encodeRecord [⟨0, .text, 4⟩] [.text [97, 0, 98]] true).getD [])
      ≠ some ([.text [97, 0, 98]], true) := by
  decide

/-- C3 witness: the amended round trip evaluated on a concrete schema
    and row. -/
theorem C3_witness :
    validateValues [⟨0, .int, 0⟩, ⟨1, .text, 4⟩] [.int 5, .text [97, 98]]
      = some [.int 5, .text [97, 98]] ∧
    roundTripSafe [⟨0, .int, 0⟩, ⟨1, .text, 4⟩] [.int 5, .text [97, 98]] = true ∧
    ∃ rec, encodeRecord [⟨0, .int, 0⟩, ⟨1, .text, 4⟩] [.int 5, .text [97, 98]] true = some rec ∧
      decodeRecord [⟨0, .int, 0⟩, ⟨1, .text, 4⟩] rec = some ([.int 5, .text [97, 98]], true) :=
  ⟨by decide, by decide,
    C3_codec_roundtrip [⟨0, .int, 0⟩, ⟨1, .text, 4⟩] [.int 5, .text [97, 98]]
      [.int 5, .text [97, 98]] true (by decide) (by decide)⟩

/-! Supporting lemmas for redo replay. -/

theorem header_bytes_length (rs rc : Nat) : (header_bytes rs rc).length = 32 := by
  simp [header_bytes, le32, le64]

theorem apply_redo_facts (ps rs : Nat) (e : RedoEntry) (s s1 : HeapState)
    (h : apply_redo ps rs e s = some s1) :
    e.data.length = rs ∧ e.row < s1.rowCount ∧ s.rowCount ≤ s1.rowCount := by
  unfold apply_redo at h
  split at h
  · simp at h
  · next hlen =>
    simp only [Option.some.injEq] at h
    subst h
    refine ⟨by omega, ?_, ?_⟩ <;> split <;> simp <;> omega

theorem replay_entry_facts (ps rs : Nat) : ∀ (L : List RedoEntry) (s s2 : HeapState),
    replay ps rs L s = some s2 →
    s.rowCount ≤ s2.rowCount ∧ ∀ e ∈ L, e.row < s2.rowCount ∧ e.data.length = rs := by
  intro L
  induction L with
  | nil =>
    intro s s2 h
    simp only [replay, Option.some.injEq] at h
    subst h
    exact ⟨le_refl _, by simp⟩
  | cons e M ih =>
    intro s s2 h
    simp only [replay] at h
    cases ha : apply_redo ps rs e s with
    | none => rw [ha] at h; simp at h
    | some s1 =>
      rw [ha] at h
      obtain ⟨hlen, hrow, hmono⟩ := apply_redo_facts ps rs e s s1 ha
      obtain ⟨hmono2, hall⟩ := ih s1 s2 h
      refine ⟨by omega, ?_⟩
      intro e2 he2
      rcases List.mem_cons.mp he2 with rfl | hmem
      · exact ⟨by omega, hlen⟩
      · exact hall e2 hmem

theorem replay_no_extend (ps rs : Nat) : ∀ (L : List RedoEntry) (t : HeapState),
    (∀ e ∈ L, e.row < t.rowCount ∧ e.data.length = rs) →
    replay ps rs L t = some ⟨applyWrites ps rs L t.bytes, t.rowCount⟩ := by
  intro L
  induction L with
  | nil => intro t _; simp [replay, applyWrites]
  | cons e M ih =>
    intro t hall
    obtain ⟨hrow, hlen⟩ := hall e (by simp)
    have hstep : apply_redo ps rs e t
        = some ⟨write_bytes t.bytes (record_offset ps rs e.row) e.data, t.rowCount⟩ := by
      unfold apply_redo
      rw [if_neg (by omega), if_neg (by omega)]
    simp only [replay, hstep]
    rw [ih ⟨write_bytes t.bytes (record_offset ps rs e.row) e.data, t.rowCount⟩
      (fun e2 he2 => hall e2 (by simp [he2]))]
    rfl

theorem lastWriteFrom_acc (ps rs : Nat) : ∀ (M : List RedoEntry) (acc : Option Nat) (o : Nat),
    lastWriteFrom ps rs acc M o
      = match lastWriteFrom ps rs none M o with
        | some b => some b
        | none => acc := by
  intro M
  induction M with
  | nil => intro acc o; rfl
  | cons e M ih =>
    intro acc o
    show lastWriteFrom ps rs
        (if record_offset ps rs e.row ≤ o ∧ o < record_offset ps rs e.row + e.data.length
         then some (e.data.getD (o - record_offset ps rs e.row) 0) else acc) M o = _
    by_cases hin : record_offset ps rs e.row ≤ o ∧ o < record_offset ps rs e.row + e.data.length
    · rw [if_pos hin]
      have hl : lastWriteFrom ps rs none (e :: M) o
          = lastWriteFrom ps rs (some (e.data.getD (o - record_offset ps rs e.row) 0)) M o := by
        show lastWriteFrom ps rs (if _ then _ else _) M o = _
        rw [if_pos hin]
      rw [hl, ih]
      cases lastWriteFrom ps rs none M o <;> rfl
    · rw [if_neg hin]
      have hl : lastWriteFrom ps rs none (e :: M) o = lastWriteFrom ps rs none M o := by
        show lastWriteFrom ps rs (if _ then _ else _) M o = _
        rw [if_neg hin]
      rw [hl, ih]

theorem applyWrites_eq_lastWrite (ps rs : Nat) : ∀ (L : List RedoEntry) (f : Nat → Nat) (o : Nat),
    applyWrites ps rs L f o = (lastWriteFrom ps rs none L o).getD (f o) := by
  intro L
  induction L with
  | nil => intro f o; rfl
  | cons e M ih =>
    intro f o
    show applyWrites ps rs M (write_bytes f (record_offset ps rs e.row) e.data) o = _
    rw [ih]
    have hl : lastWriteFrom ps rs none (e :: M) o
        = lastWriteFrom ps rs
          (if record_offset ps rs e.row ≤ o ∧ o < record_offset ps rs e.row + e.data.length
           then some (e.data.getD (o - record_offset ps rs e.row) 0) else none) M o := rfl
    rw [hl, lastWriteFrom_acc, lastWriteFrom_acc ps rs M
      (if record_offset ps rs e.row ≤ o ∧ o < record_offset ps rs e.row + e.data.length
       then some (e.data.getD (o - record_offset ps rs e.row) 0) else none) o]
    cases lastWriteFrom ps rs none M o with
    | some b => rfl
    | none =>
      simp only [Option.getD]
      unfold write_bytes
      by_cases hin : record_offset ps rs e.row ≤ o ∧ o < record_offset ps rs e.row + e.data.length
      · rw [if_pos hin, if_pos hin]
      · rw [if_neg hin, if_neg hin]

theorem replay_bytes_spec (ps rs : Nat) (hps : 32 ≤ ps) : ∀ (L : List RedoEntry)
    (s s2 : HeapState), replay ps rs L s = some s2 → ∀ o : Nat,
    (∀ b, lastWriteFrom ps rs none L o = some b → s2.bytes o = b) ∧
    (lastWriteFrom ps rs none L o = none → 32 ≤ o → s2.bytes o = s.bytes o) := by
  intro L
  induction L with
  | nil =>
    intro s s2 h o
    simp only [replay, Option.some.injEq] at h
    subst h
    exact ⟨fun b hb => by simp [lastWriteFrom] at hb, fun _ _ => rfl⟩
  | cons e M ih =>
    intro s s2 h o
    simp only [replay] at h
    cases ha : apply_redo ps rs e s with
    | none => rw [ha] at h; simp at h
    | some s1 =>
      rw [ha] at h
      have hrep : replay ps rs M s1 = some s2 := h
      have hlen : e.data.length = rs := (apply_redo_facts ps rs e s s1 ha).1
      have hs1bytes : s1.bytes = write_bytes
          (if e.row ≥ s.rowCount
           then write_bytes s.bytes 0 (header_bytes rs (e.row + 1)) else s.bytes)
          (record_offset ps rs e.row) e.data := by
        unfold apply_redo at ha
        rw [if_neg (by omega)] at ha
        split at ha
        · next hge =>
          simp only [Option.some.injEq] at ha
          subst ha
          rw [if_pos hge]
        · next hlt =>
          simp only [Option.some.injEq] at ha
          subst ha
          rw [if_neg hlt]
      have hEM : lastWriteFrom ps rs none (e :: M) o
          = match lastWriteFrom ps rs none M o with
            | some b => some b
            | none =>
              if record_offset ps rs e.row ≤ o ∧ o < record_offset ps rs e.row + e.data.length
              then some (e.data.getD (o - record_offset ps rs e.row) 0) else none := by
        show lastWriteFrom ps rs (if _ then _ else _) M o = _
        rw [lastWriteFrom_acc]
      by_cases hin : record_offset ps rs e.row ≤ o ∧ o < record_offset ps rs e.row + e.data.length
      · have ho32 : 32 ≤ o := by
          have := hin.1
          unfold record_offset at this
          omega
        have hs1o : s1.bytes o = e.data.getD (o - record_offset ps rs e.row) 0 := by
          rw [hs1bytes]
          simp only [write_bytes]
          rw [if_pos hin]
        cases hm : lastWriteFrom ps rs none M o with
        | some b =>
          have hval : lastWriteFrom ps rs none (e :: M) o = some b := by
            rw [hEM, hm]
          refine ⟨fun b2 hb2 => ?_, fun hn _ => ?_⟩
          · rw [hval] at hb2
            cases hb2
            exact (ih s1 s2 hrep o).1 b hm
          · rw [hval] at hn
            cases hn
        | none =>
          have hval : lastWriteFrom ps rs none (e :: M) o
              = some (e.data.getD (o - record_offset ps rs e.row) 0) := by
            rw [hEM, hm]
            simp [hin]
          refine ⟨fun b2 hb2 => ?_, fun hn _ => ?_⟩
          · rw [hval] at hb2
            cases hb2
            rw [← hs1o]
            exact (ih s1 s2 hrep o).2 hm ho32
          · rw [hval] at hn
            cases hn
      · have hs1o : 32 ≤ o → s1.bytes o = s.bytes o := by
          intro ho32
          rw [hs1bytes]
          simp only [write_bytes]
          rw [if_neg hin]
          split
          · next hcase =>
            simp only [write_bytes]
            rw [if_neg (by rw [header_bytes_length]; omega)]
          · rfl
        cases hm : lastWriteFrom ps rs none M o with
        | some b =>
          have hval : lastWriteFrom ps rs none (e :: M) o = some b := by
            rw [hEM, hm]
          refine ⟨fun b2 hb2 => ?_, fun hn _ => ?_⟩
          · rw [hval] at hb2
            cases hb2
            exact (ih s1 s2 hrep o).1 b hm
          · rw [hval] at hn
            cases hn
        | none =>
          have hval : lastWriteFrom ps rs none (e :: M) o = none := by
            rw [hEM, hm]
            simp [hin]
          refine ⟨fun b2 hb2 => ?_, fun _ ho32 => ?_⟩
          · rw [hval] at hb2
            cases hb2
          · rw [(ih s1 s2 hrep o).2 hm ho32, hs1o ho32]

theorem applyWrites_absorb (ps rs : Nat) (hps : 32 ≤ ps) (L : List RedoEntry)
    (s s2 : HeapState) (h : replay ps rs L s = some s2) :
    applyWrites ps rs L s2.bytes = s2.bytes := by
  funext o
  rw [applyWrites_eq_lastWrite]
  cases hlw : lastWriteFrom ps rs none L o with
  | none => rfl
  | some b =>
    have := (replay_bytes_spec ps rs hps L s s2 h o).1 b hlw
    simp [this]

/-- C2: log replay is idempotent.  For a table state whose layout has the
    32 byte header disjoint from the record area (page_size at least 32,
    which every state of the documented file layout satisfies), replaying
    a prefix of the redo log a second time reproduces exactly the same
    table bytes and row count. -/
theorem C2_replay_idempotent (ps rs : Nat) (L : List RedoEntry) (s s2 : HeapState)
    (hps : 32 ≤ ps) (h : replay ps rs L s = some s2) :
    replay ps rs L s2 = some s2 := by
  have hf := replay_entry_facts ps rs L s s2 h
  have h2 := replay_no_extend ps rs L s2 (fun e he => ⟨(hf.2 e he).1, (hf.2 e he).2⟩)
  rw [h2, applyWrites_absorb ps rs hps L s s2 h]

/-- C2 witness: a concrete one entry log replayed from the empty state,
    then replayed again onto the resulting state. -/
theorem C2_witness : ∃ s2, replay 64 2 [⟨0, [1, 7]⟩] ⟨fun _ => 0, 0⟩ = some s2 ∧
    replay 64 2 [⟨0, [1, 7]⟩] s2 = some s2 := by
  obtain ⟨s2, h⟩ : ∃ s2, replay 64 2 [⟨0, [1, 7]⟩] ⟨fun _ => 0, 0⟩ = some s2 := ⟨_, rfl⟩
  exact ⟨s2, h, C2_replay_idempotent 64 2 [⟨0, [1, 7]⟩] ⟨fun _ => 0, 0⟩ s2 (by omega) h⟩

/-! Supporting lemmas for the write-ahead ordering. -/

theorem seenAfter_append (tr1 tr2 : List Event) : ∀ seen : List (Nat × List Nat),
    seenAfter seen (tr1 ++ tr2) = seenAfter (seenAfter seen tr1) tr2 := by
  induction tr1 with
  | nil => intro seen; rfl
  | cons e rest ih =>
    intro seen
    cases e <;> simp only [List.cons_append, seenAfter] <;> exact ih _

theorem redoOrderedAux_append (tr1 tr2 : List Event) : ∀ seen : List (Nat × List Nat),
    redoOrderedAux seen (tr1 ++ tr2)
      = (redoOrderedAux seen tr1 && redoOrderedAux (seenAfter seen tr1) tr2) := by
  induction tr1 with
  | nil => intro seen; rfl
  | cons e rest ih =>
    intro seen
    cases e with
    | append op r rec =>
      simp only [List.cons_append, redoOrderedAux, seenAfter, List.append_eq]
      exact ih _
    | writeRec r rec =>
      simp only [List.cons_append, redoOrderedAux, seenAfter, List.append_eq]
      rw [ih seen, Bool.and_assoc]
    | writeHeader rc =>
      simp only [List.cons_append, redoOrderedAux, seenAfter, List.append_eq]
      exact ih _

theorem ts_update_rows_ordered (cols : List Column) (env : TSEnv)
    (setvs : List (Nat × Value)) (wh : Option (Nat × Value)) :
    ∀ (rows : List Nat) (st : TSState) (tr : List Event) (count : Nat)
      (seen : List (Nat × List Nat)),
    redoOrderedAux seen tr = true →
    redoOrderedAux seen (ts_update_rows cols true env setvs wh rows st tr count).2.2
      = true := by
  intro rows
  induction rows with
  | nil => intro st tr count seen h; exact h
  | cons row rest ih =>
    intro st tr count seen h
    show redoOrderedAux seen
      (match decodeRecord cols (ts_read_record cols st row) with
       | none => (none, st, tr)
       | some (values, valid) => _).2.2 = true
    cases decodeRecord cols (ts_read_record cols st row) with
    | none => exact h
    | some p =>
      obtain ⟨values, valid⟩ := p
      by_cases hv : valid = true
      · simp only [hv, Bool.not_true]
        by_cases hw : whereMatch cols wh values = true
        · simp only [hw, Bool.not_true]
          simp only [Bool.false_eq_true, if_false]
          split
          · exact h
          · split
            · exact h
            · split
              · simp only [Prod.snd]
                rw [redoOrderedAux_append]
                rw [h]
                simp [redoOrderedAux, seenAfter]
              · refine ih _ _ _ seen ?_
                rw [redoOrderedAux_append, redoOrderedAux_append]
                rw [h]
                simp [redoOrderedAux, seenAfter, seenAfter_append]
        · simp only [hw]
          exact ih _ _ _ seen h
      · simp only [Bool.not_eq_true] at hv
        simp only [hv]
        exact ih _ _ _ seen h

theorem ts_remove_rows_ordered (cols : List Column) (env : TSEnv)
    (wh : Option (Nat × Value)) :
    ∀ (rows : List Nat) (st : TSState) (tr : List Event) (count : Nat)
      (seen : List (Nat × List Nat)),
    redoOrderedAux seen tr = true →
    redoOrderedAux seen (ts_remove_rows cols true env wh rows st tr count).2.2 = true := by
  intro rows
  induction rows with
  | nil => intro st tr count seen h; exact h
  | cons row rest ih =>
    intro st tr count seen h
    show redoOrderedAux seen
      (match decodeRecord cols (ts_read_record cols st row) with
       | none => (none, st, tr)
       | some (values, valid) => _).2.2 = true
    cases decodeRecord cols (ts_read_record cols st row) with
    | none => exact h
    | some p =>
      obtain ⟨values, valid⟩ := p
      by_cases hv : valid = true
      · simp only [hv, Bool.not_true]
        by_cases hw : whereMatch cols wh values = true
        · simp only [hw, Bool.not_true]
          simp only [Bool.false_eq_true, if_false]
          split
          · exact h
          · split
            · simp only [Prod.snd]
              rw [redoOrderedAux_append]
              rw [h]
              simp [redoOrderedAux, seenAfter]
            · refine ih _ _ _ seen ?_
              rw [redoOrderedAux_append, redoOrderedAux_append]
              rw [h]
              simp [redoOrderedAux, seenAfter, seenAfter_append]
        · simp only [hw]
          exact ih _ _ _ seen h
      · simp only [Bool.not_eq_true] at hv
        simp only [hv]
        exact ih _ _ _ seen h

theorem ts_insert_ordered (cols : List Column) (env : TSEnv) (vals : List Value)
    (st : TSState) : redoOrdered (ts_insert cols true env vals st).2.2 = true := by
  unfold ts_insert
  cases validateValues cols vals with
  | none => rfl
  | some normalized =>
    simp only
    cases encodeRecord cols normalized true with
    | none => rfl
    | some rec =>
      simp only
      split
      · rfl
      · split
        · simp [redoOrdered, redoOrderedAux]
        · split
          · simp [redoOrdered, redoOrderedAux]
          · split
            · simp [redoOrdered, redoOrderedAux]
            · simp [redoOrdered, redoOrderedAux, redoOrderedAux_append, seenAfter]

/-- C1: for every mutating TableStorage operation with the log manager
    attached, every record write in the performed-effect trace is
    strictly preceded by a successful redo append of the same row and
    the same post-image bytes; in particular a row whose append fails is
    never written. -/
theorem C1_redo_before_write (cols : List Column) (env : TSEnv) (vals : List Value)
    (sets : List (Nat × Value)) (wh : Option (Nat × Value)) (st : TSState) :
    redoOrdered (ts_insert cols true env vals st).2.2 = true ∧
    redoOrdered (ts_update cols true env sets wh st).2.2 = true ∧
    redoOrdered (ts_remove cols true env wh st).2.2 = true := by
  refine ⟨ts_insert_ordered cols env vals st, ?_, ?_⟩
  · unfold ts_update
    split
    · rfl
    · cases resolveSets cols sets with
      | none => rfl
      | some setvs =>
        simp only
        cases resolveWhere cols wh with
        | none => rfl
        | some rwh =>
          exact ts_update_rows_ordered cols env setvs rwh _ st [] 0 [] rfl
  · unfold ts_remove
    cases resolveWhere cols wh with
    | none => rfl
    | some rwh =>
      exact ts_remove_rows_ordered cols env rwh _ st [] 0 [] rfl

/-- C6: a successful insert takes its row id from the back of the free
    list when the free list is non-empty, leaving row_count unchanged
    and writing no header; otherwise it uses row_count, increments it,
    and rewrites the header. -/
theorem C6_insert_slot_choice (cols : List Column) (env : TSEnv) (vals : List Value)
    (st st2 : TSState) (rid : Nat) (tr : List Event)
    (heq : ts_insert cols true env vals st = (some rid, st2, tr)) :
    (st.freeList ≠ [] →
      st.freeList.getLast? = some rid ∧ st2.freeList = st.freeList.dropLast ∧
      st2.rowCount = st.rowCount ∧ ∀ rc, Event.writeHeader rc ∉ tr) ∧
    (st.freeList = [] →
      rid = st.rowCount ∧ st2.rowCount = st.rowCount + 1 ∧ st2.freeList = [] ∧
      Event.writeHeader (st.rowCount + 1) ∈ tr) := by
  unfold ts_insert at heq
  cases hval : validateValues cols vals with
  | none => rw [hval] at heq; simp at heq
  | some nv =>
    rw [hval] at heq
    cases hfl : st.freeList.getLast? with
    | some r =>
      have hne : st.freeList ≠ [] := by
        intro he
        rw [he] at hfl
        simp at hfl
      simp only [hfl] at heq
      split at heq
      · simp at heq
      · split at heq
        · simp at heq
        · split at heq
          · simp at heq
          · rw [if_pos True.intro] at heq
            simp only [Prod.mk.injEq, Option.some.injEq] at heq
            obtain ⟨hrid, hst2, htr⟩ := heq
            subst hrid
            subst hst2
            subst htr
            refine ⟨fun _ => ⟨rfl, rfl, rfl, fun rc => by simp⟩, fun he => absurd he hne⟩
    | none =>
      have hnil : st.freeList = [] := by
        rwa [List.getLast?_eq_none_iff] at hfl
      simp only [hfl] at heq
      split at heq
      · simp at heq
      · split at heq
        · simp at heq
        · split at heq
          · simp at heq
          · rw [if_neg (by simp)] at heq
            split at heq
            · simp at heq
            · simp only [Prod.mk.injEq, Option.some.injEq] at heq
              obtain ⟨hrid, hst2, htr⟩ := heq
              subst hrid
              subst hst2
              subst htr
              refine ⟨fun hne => absurd hnil hne, fun _ => ⟨rfl, rfl, hnil, by simp⟩⟩

/-- C6 witness: a concrete successful insert reusing a free slot. -/
theorem C6_witness : ∃ st2 tr,
    ts_insert [⟨0, .int, 0⟩] true ⟨fun _ => true, fun _ => true, true⟩ [.int 7]
      ⟨3, [2, 1], fun _ => []⟩ = (some 1, st2, tr) ∧
    st2.freeList = [2] ∧ st2.rowCount = 3 := by
  obtain ⟨st2, tr, heq⟩ : ∃ st2 tr,
      ts_insert [⟨0, .int, 0⟩] true ⟨fun _ => true, fun _ => true, true⟩ [.int 7]
        ⟨3, [2, 1], fun _ => []⟩ = (some 1, st2, tr) := ⟨_, _, rfl⟩
  have h := (C6_insert_slot_choice _ _ _ _ _ _ _ heq).1 (by decide)
  exact ⟨st2, tr, heq, by simp [h.2.1], by simp [h.2.2.1]⟩

/-- C10: insert is not atomic on failure.  Once validation has passed
    the row id choice mutates the free list or row_count, and every
    later failure (encode, redo append, record write, header write)
    returns with that mutation kept: the popped free-list entry stays
    popped and the incremented row_count stays incremented. -/
theorem C10_insert_no_rollback (cols : List Column) (hasLog : Bool) (env : TSEnv)
    (vals nv : List Value) (st st2 : TSState) (tr : List Event)
    (hval : validateValues cols vals = some nv)
    (heq : ts_insert cols hasLog env vals st = (none, st2, tr)) :
    st2.freeList = st.freeList.dropLast ∧
    st2.rowCount = (if st.freeList.isEmpty then st.rowCount + 1 else st.rowCount) := by
  unfold ts_insert at heq
  rw [hval] at heq
  cases hfl : st.freeList.getLast? with
  | some r =>
    have hemp : st.freeList.isEmpty = false := by
      cases hl : st.freeList with
      | nil => rw [hl] at hfl; simp at hfl
      | cons a t => rfl
    simp only [hfl] at heq
    rw [hemp, if_neg (by simp)]
    split at heq
    · simp only [Prod.mk.injEq] at heq
      rw [← heq.2.1]
      exact ⟨rfl, rfl⟩
    · split at heq
      · simp only [Prod.mk.injEq] at heq
        rw [← heq.2.1]
        exact ⟨rfl, rfl⟩
      · split at heq
        · simp only [Prod.mk.injEq] at heq
          rw [← heq.2.1]
          exact ⟨rfl, rfl⟩
        · rw [if_pos True.intro] at heq
          simp only [Prod.mk.injEq] at heq
          exact absurd heq.1 (by simp)
  | none =>
    have hnil : st.freeList = [] := by
      rwa [List.getLast?_eq_none_iff] at hfl
    have hemp : st.freeList.isEmpty = true := by rw [hnil]; rfl
    simp only [hfl] at heq
    rw [hemp, if_pos rfl]
    split at heq
    · simp only [Prod.mk.injEq] at heq
      rw [← heq.2.1]
      exact ⟨by simp [hnil], rfl⟩
    · split at heq
      · simp only [Prod.mk.injEq] at heq
        rw [← heq.2.1]
        exact ⟨by simp [hnil], rfl⟩
      · split at heq
        · simp only [Prod.mk.injEq] at heq
          rw [← heq.2.1]
          exact ⟨by simp [hnil], rfl⟩
        · rw [if_neg (by simp)] at heq
          split at heq
          · simp only [Prod.mk.injEq] at heq
            rw [← heq.2.1]
            exact ⟨by simp [hnil], rfl⟩
          · simp only [Prod.mk.injEq] at heq
            exact absurd heq.1 (by simp)

/-- C10 witness: a concrete insert whose redo append fails after the
    free-list pop, leaving the entry popped. -/
theorem C10_witness : ∃ st2 tr,
    ts_insert [⟨0, .int, 0⟩] true ⟨fun _ => false, fun _ => true, true⟩ [.int 7]
      ⟨3, [2, 1], fun _ => []⟩ = (none, st2, tr) ∧
    st2.freeList = [2] ∧ st2.rowCount = 3 := by
  obtain ⟨st2, tr, heq⟩ : ∃ st2 tr,
      ts_insert [⟨0, .int, 0⟩] true ⟨fun _ => false, fun _ => true, true⟩ [.int 7]
        ⟨3, [2, 1], fun _ => []⟩ = (none, st2, tr) := ⟨_, _, rfl⟩
  have h := C10_insert_no_rollback _ _ _ _ [.int 7] _ _ _ (by decide) heq
  exact ⟨st2, tr, heq, by simp [h.1], by simp [h.2]⟩

/-- C4 (spec-modelled): the point operations read_row, update_row,
    delete_row and write_row are declared in TableStorage.h but not
    defined under src, so they are modelled from the spec as lock-event
    traces.  In each trace every record access at a row happens while
    the striped page lock page_id mod 64 of the page of that row is held, for
    the whole duration of the access. -/
theorem C4_page_lock_held (ps rs row : Nat) :
    locksHeld ps rs (read_row_trace ps rs row) [] = true ∧
    locksHeld ps rs (update_row_trace ps rs row) [] = true ∧
    locksHeld ps rs (delete_row_trace ps rs row) [] = true ∧
    locksHeld ps rs (write_row_trace ps rs row) [] = true := by
  refine ⟨?_, ?_, ?_, ?_⟩ <;>
    simp [locksHeld, read_row_trace, update_row_trace, delete_row_trace, write_row_trace]

/-! Supporting lemmas for the PageCache. -/

theorem findEntry_none_not_mem (entries : List CacheEntry) (pid : Nat)
    (h : findEntry entries pid = none) : pid ∉ entries.map (fun e => e.id) := by
  intro hmem
  rw [List.mem_map] at hmem
  obtain ⟨e, he, hid⟩ := hmem
  rw [findEntry, List.find?_eq_none] at h
  exact h e he (by simp [hid])

theorem findEntry_some_id (entries : List CacheEntry) (pid : Nat) (e : CacheEntry)
    (h : findEntry entries pid = some e) :
    e.id = pid ∧ pid ∈ entries.map (fun e => e.id) := by
  have hid : e.id = pid := by
    have := List.find?_some h
    simpa using this
  exact ⟨hid, List.mem_map.mpr ⟨e, List.mem_of_find?_eq_some h, hid⟩⟩

theorem findEntry_mem_some (entries : List CacheEntry) (pid : Nat)
    (h : pid ∈ entries.map (fun e => e.id)) : ∃ e, findEntry entries pid = some e := by
  cases hf : findEntry entries pid with
  | some e => exact ⟨e, rfl⟩
  | none => exact absurd h (findEntry_none_not_mem entries pid hf)

theorem eraseKey_map_id (pid : Nat) : ∀ entries : List CacheEntry,
    (eraseKey entries pid).map (fun e => e.id) = (entries.map (fun e => e.id)).erase pid := by
  intro entries
  induction entries with
  | nil => rfl
  | cons e rest ih =>
    by_cases hid : e.id = pid
    · simp only [eraseKey, if_pos hid, List.map_cons]
      rw [hid, List.erase_cons_head]
    · simp only [eraseKey, if_neg hid, List.map_cons]
      rw [List.erase_cons_tail (by simpa using hid), ih]

theorem eraseKey_length (pid : Nat) : ∀ entries : List CacheEntry,
    pid ∈ entries.map (fun e => e.id) →
    (eraseKey entries pid).length = entries.length - 1 := by
  intro entries h
  have := congrArg List.length (eraseKey_map_id pid entries)
  rw [List.length_map, List.length_erase, if_pos h, List.length_map] at this
  exact this

theorem setDirty_map_id (pid : Nat) : ∀ entries : List CacheEntry,
    (setDirty entries pid).map (fun e => e.id) = entries.map (fun e => e.id) := by
  intro entries
  induction entries with
  | nil => rfl
  | cons e rest ih =>
    by_cases hid : e.id = pid
    · simp [setDirty, if_pos hid]
    · simp only [setDirty, if_neg hid, List.map_cons]
      rw [ih]

theorem flushEntries_map_id (env : CacheEnv) : ∀ l : List CacheEntry,
    ((flushEntries env l).2).map (fun e => e.id) = l.map (fun e => e.id) := by
  intro l
  induction l with
  | nil => rfl
  | cons e rest ih =>
    by_cases hd : e.dirty = true
    · by_cases hw : env.writeOk e.id = true
      · simp only [flushEntries, if_pos hd, if_pos hw, List.map_cons]
        rw [ih]
      · simp only [flushEntries, if_pos hd, if_neg hw, List.map_cons]
    · simp only [flushEntries, hd, Bool.false_eq_true, if_false, List.map_cons]
      rw [ih]

theorem erase_getLast_dropLast (l : List Nat) (v : Nat) (hn : l.Nodup)
    (hl : l.getLast? = some v) : l.erase v = l.dropLast := by
  have hne : l ≠ [] := by
    intro he
    rw [he] at hl
    simp at hl
  have hv : l.getLast hne = v := by
    rw [List.getLast?_eq_getLast l hne] at hl
    simpa using hl
  have hsplit : l.dropLast ++ [v] = l := by
    rw [← hv]
    exact List.dropLast_concat_getLast hne
  have hnotin : v ∉ l.dropLast := by
    intro hmem
    have := hsplit ▸ hn
    rw [List.nodup_append] at this
    exact this.2.2 hmem (by simp)
  calc l.erase v = (l.dropLast ++ [v]).erase v := by rw [hsplit]
    _ = l.dropLast ++ ([v].erase v) := List.erase_append_right [v] hnotin
    _ = l.dropLast := by simp

theorem evict_spec (env : CacheEnv) (st st1 : CacheState) (hinv : CacheInv st)
    (h : evict_if_needed env st = some st1) :
    CacheInv st1 ∧ st1.capacity = st.capacity ∧
    (st.capacity ≠ 0 → st1.entries.length < st.capacity) ∧
    cacheKeys st1 ⊆ cacheKeys st ∧ st1.lru ⊆ st.lru := by
  obtain ⟨hperm, hnodup, hcap⟩ := hinv
  unfold evict_if_needed at h
  split at h
  · next hbelow =>
    simp only [Option.some.injEq] at h
    subst h
    refine ⟨⟨hperm, hnodup, hcap⟩, rfl, fun hc => ?_, fun k hk => hk, fun k hk => hk⟩
    rcases hbelow with h0 | hlt
    · exact absurd h0 hc
    · exact hlt
  · next hfull =>
    push_neg at hfull
    obtain ⟨hc0, hge⟩ := hfull
    have hlen : st.entries.length = st.capacity := by
      rcases hcap with h0 | hle
      · exact absurd h0 hc0
      · omega
    have hlru_len : st.lru.length = st.capacity := by
      have := hperm.length_eq
      rw [cacheKeys, List.length_map] at this
      omega
    have hlru_ne : st.lru ≠ [] := by
      intro he
      rw [he] at hlru_len
      simp at hlru_len
      omega
    have hgl : st.lru.getLast? = some (st.lru.getLast hlru_ne) :=
      List.getLast?_eq_getLast st.lru hlru_ne
    set v := st.lru.getLast hlru_ne with hvdef
    have hvict : (st.lru.getLast?).getD 0 = v := by rw [hgl]; rfl
    have hv_mem_lru : v ∈ st.lru := List.getLast_mem hlru_ne
    have hv_mem_keys : v ∈ cacheKeys st := hperm.mem_iff.mpr hv_mem_lru
    rw [hvict] at h
    have h2 : (match findEntry st.entries v with
        | none => some st
        | some e =>
          if e.dirty = true ∧ ¬env.writeOk v = true then none
          else some (CacheState.mk (eraseKey st.entries v) st.lru.dropLast st.capacity))
        = some st1 := h
    clear h
    split at h2
    · next hf =>
      exact absurd hv_mem_keys (findEntry_none_not_mem st.entries v hf)
    · next e hf =>
      split at h2
      · simp at h2
      · simp only [Option.some.injEq] at h2
        subst h2
        have hkeys1 : cacheKeys ⟨eraseKey st.entries v, st.lru.dropLast, st.capacity⟩
            = (cacheKeys st).erase v := eraseKey_map_id v st.entries
        have hlru1 : st.lru.erase v = st.lru.dropLast :=
          erase_getLast_dropLast st.lru v hnodup (by rw [hgl])
        have hperm1 : ((cacheKeys st).erase v).Perm (st.lru.dropLast) := by
          rw [← hlru1]
          exact hperm.erase v
        have hlen1 : (eraseKey st.entries v).length = st.capacity - 1 := by
          rw [eraseKey_length v st.entries hv_mem_keys, hlen]
        refine ⟨⟨?_, ?_, ?_⟩, rfl, fun _ => ?_, ?_, ?_⟩
        · rw [hkeys1]
          exact hperm1
        · exact hnodup.sublist (List.dropLast_sublist st.lru)
        · right
          simp only [hlen1]
          omega
        · simp only [hlen1]
          omega
        · intro k hk
          rw [hkeys1] at hk
          exact List.erase_subset v (cacheKeys st) hk
        · intro k hk
          exact (List.dropLast_sublist st.lru).subset hk

/-- C5: after get_page, mark_dirty and flush, the page ids in the map
    and in the LRU list coincide (each held exactly once) and the map
    size never exceeds a nonzero capacity (capacity 0 meaning
    unbounded). -/
theorem C5_cache_invariant (env : CacheEnv) (pid : Nat) (st : CacheState)
    (hinv : CacheInv st) :
    CacheInv (get_page env pid st).2 ∧ CacheInv (mark_dirty pid st) ∧
    CacheInv (cache_flush env st).2 := by
  obtain ⟨hperm, hnodup, hcap⟩ := hinv
  refine ⟨?_, ?_, ?_⟩
  · unfold get_page
    cases hf : findEntry st.entries pid with
    | some e =>
      have hmem_keys : pid ∈ cacheKeys st := (findEntry_some_id st.entries pid e hf).2
      have hmem_lru : pid ∈ st.lru := hperm.mem_iff.mp hmem_keys
      refine ⟨?_, ?_, hcap⟩
      · exact hperm.trans (List.perm_cons_erase hmem_lru)
      · exact List.Nodup.cons hnodup.not_mem_erase (hnodup.erase pid)
    | none =>
      cases hev : evict_if_needed env st with
      | none => exact ⟨hperm, hnodup, hcap⟩
      | some st1 =>
        obtain ⟨hinv1, hcap1, hroom, hsub, hlsub⟩ :=
          evict_spec env st st1 ⟨hperm, hnodup, hcap⟩ hev
        obtain ⟨hperm1, hnodup1, hcap1b⟩ := hinv1
        show CacheInv (if ¬ env.allocOk = true then (false, st1)
          else if ¬ env.readOk pid = true then (false, st1)
          else (true, CacheState.mk (⟨pid, false⟩ :: st1.entries) (pid :: st1.lru)
            st1.capacity)).2
        by_cases hal : env.allocOk = true
        · by_cases hrd : env.readOk pid = true
          · rw [if_neg (by simp [hal]), if_neg (by simp [hrd])]
            have hpid_keys : pid ∉ cacheKeys st := findEntry_none_not_mem st.entries pid hf
            have hpid_keys1 : pid ∉ cacheKeys st1 := fun hk => hpid_keys (hsub hk)
            have hpid_lru1 : pid ∉ st1.lru := fun hk => hpid_keys1 (hperm1.mem_iff.mpr hk)
            refine ⟨hperm1.cons pid, List.Nodup.cons hpid_lru1 hnodup1, ?_⟩
            rcases hcap1b with h0 | _
            · exact Or.inl h0
            · by_cases hc0 : st.capacity = 0
              · exact Or.inl (by rw [hcap1]; exact hc0)
              · refine Or.inr ?_
                have := hroom hc0
                show (⟨pid, false⟩ :: st1.entries).length ≤ st1.capacity
                rw [List.length_cons, hcap1]
                omega
          · rw [if_neg (by simp [hal]), if_pos (by simp [hrd])]
            exact ⟨hperm1, hnodup1, hcap1b⟩
        · rw [if_pos (by simp [hal])]
          exact ⟨hperm1, hnodup1, hcap1b⟩
  · refine ⟨?_, hnodup, ?_⟩
    · show ((setDirty st.entries pid).map (fun e => e.id)).Perm st.lru
      rw [setDirty_map_id]
      exact hperm
    · have : (setDirty st.entries pid).length = st.entries.length := by
        have := congrArg List.length (setDirty_map_id pid st.entries)
        simpa using this
      show _ ∨ (setDirty st.entries pid).length ≤ _
      rw [this]
      exact hcap
  · refine ⟨?_, hnodup, ?_⟩
    · show (((flushEntries env st.entries).2).map (fun e => e.id)).Perm st.lru
      rw [flushEntries_map_id]
      exact hperm
    · have : ((flushEntries env st.entries).2).length = st.entries.length := by
        have := congrArg List.length (flushEntries_map_id env st.entries)
        simpa using this
      show _ ∨ ((flushEntries env st.entries).2).length ≤ _
      rw [this]
      exact hcap

/-- C5 witness: the invariant evaluated across a get_page miss on a full
    cache, a mark_dirty and a flush of a concrete two-entry cache. -/
theorem C5_witness :
    CacheInv ⟨[⟨4, true⟩, ⟨9, false⟩], [9, 4], 2⟩ ∧
    (CacheInv (get_page ⟨fun _ => true, fun _ => true, true⟩ 7
        ⟨[⟨4, true⟩, ⟨9, false⟩], [9, 4], 2⟩).2 ∧
     CacheInv (mark_dirty 7 ⟨[⟨4, true⟩, ⟨9, false⟩], [9, 4], 2⟩) ∧
     CacheInv (cache_flush ⟨fun _ => true, fun _ => true, true⟩
        ⟨[⟨4, true⟩, ⟨9, false⟩], [9, 4], 2⟩).2) := by
  have hinv : CacheInv ⟨[⟨4, true⟩, ⟨9, false⟩], [9, 4], 2⟩ := by
    refine ⟨?_, ?_, ?_⟩ <;> simp [cacheKeys]
    exact List.Perm.swap 9 4 []
  exact ⟨hinv, C5_cache_invariant ⟨fun _ => true, fun _ => true, true⟩ 7
    ⟨[⟨4, true⟩, ⟨9, false⟩], [9, 4], 2⟩ hinv⟩

/-- C7: failure atomicity of the get_page miss path.  If the Pager read
    fails, get_page returns false and the missing page is inserted into
    neither the map nor the LRU (both only shrink).  If the dirty
    victim writeback fails during eviction, get_page fails with the
    cache exactly unchanged, the victim still resident. -/
theorem C7_cache_failure_atomicity (env : CacheEnv) (pid : Nat) (st : CacheState)
    (hinv : CacheInv st) :
    (findEntry st.entries pid = none → env.readOk pid = false →
      (get_page env pid st).1 = false ∧
      pid ∉ cacheKeys (get_page env pid st).2 ∧
      pid ∉ (get_page env pid st).2.lru ∧
      cacheKeys (get_page env pid st).2 ⊆ cacheKeys st ∧
      (get_page env pid st).2.lru ⊆ st.lru) ∧
    (∀ e : CacheEntry, findEntry st.entries pid = none →
      ¬(st.capacity = 0 ∨ st.entries.length < st.capacity) →
      findEntry st.entries ((st.lru.getLast?).getD 0) = some e →
      e.dirty = true →
      env.writeOk ((st.lru.getLast?).getD 0) = false →
      get_page env pid st = (false, st)) := by
  constructor
  · intro hf hrd
    have hpid_keys : pid ∉ cacheKeys st := findEntry_none_not_mem st.entries pid hf
    have hpid_lru : pid ∉ st.lru := fun hk => hpid_keys (hinv.1.mem_iff.mpr hk)
    cases hev : evict_if_needed env st with
    | none =>
      have hgp : get_page env pid st = (false, st) := by
        simp only [get_page, hf, hev]
      rw [hgp]
      exact ⟨rfl, hpid_keys, hpid_lru, fun k hk => hk, fun k hk => hk⟩
    | some st1 =>
      obtain ⟨hinv1, -, -, hsub, hlsub⟩ := evict_spec env st st1 hinv hev
      have hpid_keys1 : pid ∉ cacheKeys st1 := fun hk => hpid_keys (hsub hk)
      have hpid_lru1 : pid ∉ st1.lru := fun hk => hpid_keys1 (hinv1.1.mem_iff.mpr hk)
      by_cases hal : env.allocOk = true
      · have hgp : get_page env pid st = (false, st1) := by
          simp only [get_page, hf, hev]
          rw [if_neg (by simp [hal]), if_pos (by simp [hrd])]
        rw [hgp]
        exact ⟨rfl, hpid_keys1, hpid_lru1, hsub, hlsub⟩
      · have hgp : get_page env pid st = (false, st1) := by
          simp only [get_page, hf, hev]
          rw [if_pos (by simp [hal])]
        rw [hgp]
        exact ⟨rfl, hpid_keys1, hpid_lru1, hsub, hlsub⟩
  · intro e hf hfull hvic hdirty hwfail
    have hev : evict_if_needed env st = none := by
      simp only [evict_if_needed, if_neg hfull, hvic, hdirty, hwfail]
      simp
    simp only [get_page, hf, hev]

/-- C7 witness: a read failure on a miss inserts nothing, and a failed
    dirty-victim writeback leaves a concrete full cache unchanged. -/
theorem C7_witness :
    ((get_page ⟨fun _ => false, fun _ => true, true⟩ 7
        ⟨[⟨4, true⟩], [4], 2⟩).1 = false ∧
      7 ∉ cacheKeys (get_page ⟨fun _ => false, fun _ => true, true⟩ 7
        ⟨[⟨4, true⟩], [4], 2⟩).2 ∧
      7 ∉ (get_page ⟨fun _ => false, fun _ => true, true⟩ 7
        ⟨[⟨4, true⟩], [4], 2⟩).2.lru ∧
      cacheKeys (get_page ⟨fun _ => false, fun _ => true, true⟩ 7
        ⟨[⟨4, true⟩], [4], 2⟩).2 ⊆ cacheKeys ⟨[⟨4, true⟩], [4], 2⟩ ∧
      (get_page ⟨fun _ => false, fun _ => true, true⟩ 7
        ⟨[⟨4, true⟩], [4], 2⟩).2.lru ⊆ ([4] : List Nat)) ∧
    get_page ⟨fun _ => true, fun _ => false, true⟩ 7 ⟨[⟨4, true⟩], [4], 1⟩
      = (false, ⟨[⟨4, true⟩], [4], 1⟩) := by
  constructor
  · exact (C7_cache_failure_atomicity ⟨fun _ => false, fun _ => true, true⟩ 7
      ⟨[⟨4, true⟩], [4], 2⟩ ⟨by simp [cacheKeys], by simp, by simp⟩).1 (by decide) rfl
  · exact (C7_cache_failure_atomicity ⟨fun _ => true, fun _ => false, true⟩ 7
      ⟨[⟨4, true⟩], [4], 1⟩ ⟨by simp [cacheKeys], by simp, by simp⟩).2 ⟨4, true⟩
      (by decide) (by decide) (by decide) rfl rfl

/-! Supporting lemmas for the Pager. -/

theorem replicate_getD_zero : ∀ (k i : Nat), (List.replicate k (0 : Nat)).getD i 0 = 0 := by
  intro k
  induction k with
  | zero => intro i; cases i <;> rfl
  | succ m ih =>
    intro i
    cases i with
    | zero => rfl
    | succ j =>
      rw [List.replicate_succ]
      show (List.replicate m 0).getD j 0 = 0
      exact ih j

/-- C8: for a buffer of exactly page_size on an open pager, read_page
    succeeds at or past end of file with an all-zero page and the state
    untouched; a page overlapping end of file is returned with the file
    bytes first and the tail zero filled, and the stream error state is
    cleared; in both cases a following write_page of a full page
    succeeds. -/
theorem C8_read_page_eof (ps : Nat) (st : PagerState) (pid pid2 : Nat) (data : List Nat)
    (hopen : st.isOpen = true) (hdata : data.length = ps) :
    (pid * ps ≥ st.file.length →
      read_page ps st pid ps = (some (List.replicate ps 0), st)) ∧
    (pid * ps < st.file.length →
      (read_page ps st pid ps).1
        = some ((st.file.drop (pid * ps)).take ps
            ++ List.replicate (ps - (st.file.length - pid * ps)) 0) ∧
      (∀ i out, i < ps → st.file.length ≤ pid * ps + i →
        (read_page ps st pid ps).1 = some out → out.getD i 0 = 0) ∧
      ((read_page ps st pid ps).2).streamFail = false) ∧
    (write_page ps ((read_page ps st pid ps).2) pid2 data).1 = true := by
  have hstep : read_page ps st pid ps
      = (if pid * ps ≥ st.file.length then (some (List.replicate ps 0), st)
         else ((some ((st.file.drop (pid * ps)).take ps
             ++ List.replicate (ps - (st.file.length - pid * ps)) 0)),
           { st with streamFail := false })) := by
    unfold read_page
    rw [if_neg (by simp [hopen]), if_neg (by simp)]
  refine ⟨fun h => ?_, fun h => ?_, ?_⟩
  · rw [hstep, if_pos h]
  · rw [hstep, if_neg (by omega)]
    refine ⟨rfl, fun i out hi hpast hout => ?_, rfl⟩
    simp only [Option.some.injEq] at hout
    subst hout
    have hlenA : ((st.file.drop (pid * ps)).take ps).length = st.file.length - pid * ps := by
      rw [List.length_take, List.length_drop]
      omega
    rw [List.getD_append_right _ _ _ _ (by omega), hlenA]
    exact replicate_getD_zero _ _
  · have hopen2 : ((read_page ps st pid ps).2).isOpen = true := by
      rw [hstep]
      split <;> exact hopen
    unfold write_page
    rw [if_neg (by simp [hopen2]), if_neg (by simp [hdata])]

/-- C8 witness: a concrete pager whose file holds three bytes, read past
    the end, read overlapping the end, then written. -/
theorem C8_witness :
    (2 * 2 ≥ ([5, 6, 7] : List Nat).length →
      read_page 2 ⟨[5, 6, 7], true, true⟩ 2 2
        = (some (List.replicate 2 0), ⟨[5, 6, 7], true, true⟩)) ∧
    (1 * 2 < ([5, 6, 7] : List Nat).length →
      (read_page 2 ⟨[5, 6, 7], true, true⟩ 1 2).1 = some [7, 0] ∧
      ((read_page 2 ⟨[5, 6, 7], true, true⟩ 1 2).2).streamFail = false) ∧
    (write_page 2 ((read_page 2 ⟨[5, 6, 7], true, true⟩ 1 2).2) 0 [9, 9]).1 = true := by
  have h1 := C8_read_page_eof 2 ⟨[5, 6, 7], true, true⟩ 2 0 [9, 9] rfl rfl
  have h2 := C8_read_page_eof 2 ⟨[5, 6, 7], true, true⟩ 1 0 [9, 9] rfl rfl
  refine ⟨fun h => h1.1 h, fun h => ⟨?_, ((h2.2.1 h).2.2)⟩, h2.2.2⟩
  have := (h2.2.1 h).1
  simpa using this

/-- C9: submit on a pool that has not started executes the closure
    synchronously, returns a ready future holding its result and leaves
    the executor unchanged; after start, submit returns a pending future
    and appends the task FIFO at the back of the queue of node mod N,
    with a negative node clamped to 0, other queues untouched. -/
theorem C9_submit_semantics {α β : Type} (ex : Executor α) (run : α → β) (node : Int)
    (task : α) :
    (ex.running = false → submit ex run node task = (.ready (run task), ex)) ∧
    (ex.running = true → 0 < ex.nodes →
      (submit ex run node task).1 = Future.pending ∧
      (submit ex run node task).2.queues
        = ex.queues.set (if node < 0 then 0 else node.toNat % ex.nodes)
            ((ex.queues.getD (if node < 0 then 0 else node.toNat % ex.nodes) []) ++ [task])) := by
  constructor
  · intro hr
    unfold submit
    rw [if_pos (by simp [hr])]
  · intro hr hn
    have hsub : submit ex run node task = (.pending, enqueue ex node task) := by
      unfold submit
      rw [if_neg (by simp [hr])]
    have htarget : (if (if node < 0 then 0 else node) ≥ (ex.nodes : Int)
          then (if node < 0 then 0 else node) % (ex.nodes : Int)
          else (if node < 0 then 0 else node)).toNat
        = (if node < 0 then 0 else node.toNat % ex.nodes) := by
      by_cases hneg : node < 0
      · rw [if_pos hneg, if_pos hneg]
        rw [if_neg (by omega)]
        rfl
      · rw [if_neg hneg, if_neg hneg]
        obtain ⟨n, rfl⟩ : ∃ n : Nat, node = (n : Int) :=
          ⟨node.toNat, (Int.toNat_of_nonneg (by omega)).symm⟩
        by_cases hge : (n : Int) ≥ (ex.nodes : Int)
        · rw [if_pos hge, ← Int.natCast_mod, Int.toNat_natCast, Int.toNat_natCast]
        · rw [if_neg hge, Int.toNat_natCast]
          have : n % ex.nodes = n := Nat.mod_eq_of_lt (by omega)
          omega
    have henq : enqueue ex node task
        = Executor.mk ex.nodes ex.running
            (ex.queues.set (if node < 0 then 0 else node.toNat % ex.nodes)
              ((ex.queues.getD (if node < 0 then 0 else node.toNat % ex.nodes) [])
                ++ [task])) := by
      unfold enqueue
      rw [if_neg (by simp [hr])]
      simp only [htarget]
    rw [hsub, henq]
    exact ⟨rfl, rfl⟩

/-- C9 witness: a not-started pool runs the closure synchronously; a
    started two-node pool enqueues a negative node on queue 0 and node 5
    on queue 5 mod 2 = 1. -/
theorem C9_witness :
    submit (Executor.mk 2 false [[], []]) (fun t : Nat => t + 1) 5 41
      = (.ready 42, Executor.mk 2 false [[], []]) ∧
    (submit (Executor.mk 2 true [[], []]) (fun t : Nat => t + 1) (-3) 41).2.queues
      = [[41], []] ∧
    (submit (Executor.mk 2 true [[], []]) (fun t : Nat => t + 1) 5 41).2.queues
      = [[], [41]] := by
  refine ⟨(C9_submit_semantics _ _ 5 41).1 rfl, ?_, ?_⟩
  · have := ((C9_submit_semantics (Executor.mk 2 true [[], []])
      (fun t : Nat => t + 1) (-3) 41).2 rfl (by decide)).2
    rw [this]
    rfl
  · have := ((C9_submit_semantics (Executor.mk 2 true [[], []])
      (fun t : Nat => t + 1) 5 41).2 rfl (by decide)).2
    rw [this]
    rfl

end MiniDb
